import Mathlib

/-!
Verification of the file-server repository's streaming crypto engine and
route-level artifact lifecycle, as a shallow embedding in Lean.

Bytes are modelled as `Nat` (with explicit `% 256` / `% 2 ^ 32` where the
source's machine arithmetic wraps), byte strings as `List Nat`, Python
strings as `List Char`.  External primitives are handled as follows:

* the AES-256 block permutation (from the `cryptography` package) is a
  parameter `E`/`D : List Nat → List Nat` of the definitions that use it,
  with its defining properties (inverse, 16-byte blocks) taken as explicit
  hypotheses of the theorems that need them;
* SHA-256 / HMAC / HKDF are implemented concretely (FIPS 180-4 / RFC 2104 /
  RFC 5869), matching what the `cryptography` package computes;
* the PKCS7 padder/unpadder and the CBC cipher contexts reproduce the
  buffering behaviour of `cryptography.hazmat.primitives.padding.PKCS7`
  and of the OpenSSL EVP cipher contexts (emit whole blocks, buffer the
  partial remainder);
* the filesystem visible to the route handlers is a partial map from path
  strings to entries.
-/

namespace FileServer

/-- Largest multiple of 16 that is `≤ n`; the number of bytes a block-wise
streaming stage can release out of `n` buffered bytes. -/
def floorB (n : Nat) : Nat := n - n % 16

/-- Pointwise XOR of two byte strings (truncating to the shorter, as
`zip` does; all uses are on equal 16-byte blocks). -/
def xorBytes (a b : List Nat) : List Nat := List.zipWith (fun x y => x ^^^ y) a b

/-! ## PKCS7 padder and unpadder

Model of `cryptography.hazmat.primitives.padding.PKCS7(128)`: `update`
buffers input and releases all whole 16-byte blocks; the padder's
`finalize` appends `16 - len(buffer)` bytes of that same value, the
unpadder's `finalize` demands exactly one block and strips its padding. -/

structure PadBuf where
  buf : List Nat
deriving Repr, DecidableEq

/-- `PKCS7(128).padder().update(data)`: release whole blocks, keep the rest. -/
def padderUpdate (s : PadBuf) (data : List Nat) : PadBuf × List Nat :=
  let b := s.buf ++ data
  let n := floorB b.length
  (⟨b.drop n⟩, b.take n)

/-- `PKCS7(128).padder().finalize()`: append `16 - len(buf)` copies of that
value (16 copies of `16` when the buffer is empty). -/
def padderFinalize (s : PadBuf) : List Nat :=
  let pad := 16 - s.buf.length
  s.buf ++ List.replicate pad pad

/-- `PKCS7(128).unpadder().update(data)`: hold back the trailing block (it
may be padding); release everything before it. -/
def unpadderUpdate (s : PadBuf) (data : List Nat) : PadBuf × List Nat :=
  let b := s.buf ++ data
  let finished := b.length / 16 - 1
  (⟨b.drop (finished * 16)⟩, b.take (finished * 16))

/-- `PKCS7(128).unpadder().finalize()`: the buffer must be exactly one block
whose last byte `p` satisfies `1 ≤ p ≤ 16` and whose last `p` bytes all
equal `p`; strip them.  `none` models the `ValueError` raise. -/
def unpadFinalize (s : PadBuf) : Option (List Nat) :=
  if s.buf.length = 16 then
    let p := s.buf.getLast?.getD 0
    if 1 ≤ p ∧ p ≤ 16 ∧ s.buf.drop (16 - p) = List.replicate p p then
      some (s.buf.take (16 - p))
    else
      none
  else
    none

/-! ## CBC cipher contexts

`Cipher(AES(key), CBC(iv)).encryptor()/.decryptor()` over an abstract
16-byte block permutation `E` (resp. its inverse `D`).  The context holds
the chaining value and an input buffer; `update` processes all whole
blocks, `finalize` raises iff a partial block remains. -/

structure CipherBuf where
  prev : List Nat
  buf : List Nat
deriving Repr, DecidableEq

/-- Encrypt a whole-block byte string in CBC mode starting from chaining
value `prev`; returns the new chaining value and the ciphertext.  Trailing
bytes short of a block are ignored (callers only pass whole blocks). -/
def cbcEncRun (E : List Nat → List Nat) (prev data : List Nat) : List Nat × List Nat :=
  if _h : data.length < 16 then (prev, [])
  else
    let c := E (xorBytes (data.take 16) prev)
    let r := cbcEncRun E c (data.drop 16)
    (r.1, c ++ r.2)
termination_by data.length
decreasing_by simp_wf; omega

/-- Decrypt a whole-block byte string in CBC mode starting from chaining
value `prev`; returns the new chaining value and the plaintext. -/
def cbcDecRun (D : List Nat → List Nat) (prev data : List Nat) : List Nat × List Nat :=
  if _h : data.length < 16 then (prev, [])
  else
    let c := data.take 16
    let pt := xorBytes (D c) prev
    let r := cbcDecRun D c (data.drop 16)
    (r.1, pt ++ r.2)
termination_by data.length
decreasing_by simp_wf; omega

/-- `encryptor.update(data)`: buffer, process whole blocks, keep remainder. -/
def encCtxUpdate (E : List Nat → List Nat) (s : CipherBuf) (data : List Nat) :
    CipherBuf × List Nat :=
  let b := s.buf ++ data
  let n := floorB b.length
  let r := cbcEncRun E s.prev (b.take n)
  (⟨r.1, b.drop n⟩, r.2)

/-- `decryptor.update(data)`: buffer, process whole blocks, keep remainder. -/
def decCtxUpdate (D : List Nat → List Nat) (s : CipherBuf) (data : List Nat) :
    CipherBuf × List Nat :=
  let b := s.buf ++ data
  let n := floorB b.length
  let r := cbcDecRun D s.prev (b.take n)
  (⟨r.1, b.drop n⟩, r.2)

/-! ## SHA-256, HMAC-SHA256, HKDF-SHA256

Concrete implementations of the external primitives the source calls via
`cryptography.hazmat.primitives` (`hashes.SHA256`, `hmac.HMAC`,
`kdf.hkdf.HKDF`), over byte strings as `List Nat`. -/

/-- Right rotation of a 32-bit word. -/
def rotr32 (n x : Nat) : Nat := ((x >>> n) ||| (x <<< (32 - n))) % 2 ^ 32

/-- The SHA-256 round constants. -/
def sha256K : List Nat :=
  [1116352408, 1899447441, 3049323471, 3921009573, 961987163, 1508970993,
   2453635748, 2870763221, 3624381080, 310598401, 607225278, 1426881987,
   1925078388, 2162078206, 2614888103, 3248222580, 3835390401, 4022224774,
   264347078, 604807628, 770255983, 1249150122, 1555081692, 1996064986,
   2554220882, 2821834349, 2952996808, 3210313671, 3336571891, 3584528711,
   113926993, 338241895, 666307205, 773529912, 1294757372, 1396182291,
   1695183700, 1986661051, 2177026350, 2456956037, 2730485921, 2820302411,
   3259730800, 3345764771, 3516065817, 3600352804, 4094571909, 275423344,
   430227734, 506948616, 659060556, 883997877, 958139571, 1322822218,
   1537002063, 1747873779, 1955562222, 2024104815, 2227730452, 2361852424,
   2428436474, 2756734187, 3204031479, 3329325298]

/-- The SHA-256 working state: eight 32-bit words. -/
structure Sha256State where
  a : Nat
  b : Nat
  c : Nat
  d : Nat
  e : Nat
  f : Nat
  g : Nat
  h : Nat
deriving Repr, DecidableEq

/-- The SHA-256 initial hash value. -/
def sha256H0 : Sha256State :=
  ⟨1779033703, 3144134277, 1013904242, 2773480762,
   1359893119, 2600822924, 528734635, 1541459225⟩

/-- Extend the 16 message words of one block to the 64-word schedule. -/
def sha256Extend : Nat → List Nat → List Nat
  | 0, ws => ws
  | n + 1, ws =>
    let w15 := ws.getD (ws.length - 15) 0
    let w2 := ws.getD (ws.length - 2) 0
    let s0 := (rotr32 7 w15) ^^^ (rotr32 18 w15) ^^^ (w15 >>> 3)
    let s1 := (rotr32 17 w2) ^^^ (rotr32 19 w2) ^^^ (w2 >>> 10)
    let w16 := ws.getD (ws.length - 16) 0
    let w7 := ws.getD (ws.length - 7) 0
    sha256Extend n (ws ++ [(w16 + s0 + w7 + s1) % 2 ^ 32])

/-- One SHA-256 round. -/
def sha256Round (st : Sha256State) (k w : Nat) : Sha256State :=
  let s1 := (rotr32 6 st.e) ^^^ (rotr32 11 st.e) ^^^ (rotr32 25 st.e)
  let ch := (st.e &&& st.f) ^^^ ((st.e ^^^ (2 ^ 32 - 1)) &&& st.g)
  let t1 := (st.h + s1 + ch + k + w) % 2 ^ 32
  let s0 := (rotr32 2 st.a) ^^^ (rotr32 13 st.a) ^^^ (rotr32 22 st.a)
  let mj := (st.a &&& st.b) ^^^ (st.a &&& st.c) ^^^ (st.b &&& st.c)
  let t2 := (s0 + mj) % 2 ^ 32
  ⟨(t1 + t2) % 2 ^ 32, st.a, st.b, st.c, (st.d + t1) % 2 ^ 32, st.e, st.f, st.g⟩

/-- Compress one 64-byte block (given as 16 words) into the running state. -/
def sha256Compress (st : Sha256State) (ws : List Nat) : Sha256State :=
  let sched := sha256Extend 48 ws
  let r := (List.zip sha256K sched).foldl (fun s kw => sha256Round s kw.1 kw.2) st
  ⟨(st.a + r.a) % 2 ^ 32, (st.b + r.b) % 2 ^ 32, (st.c + r.c) % 2 ^ 32,
   (st.d + r.d) % 2 ^ 32, (st.e + r.e) % 2 ^ 32, (st.f + r.f) % 2 ^ 32,
   (st.g + r.g) % 2 ^ 32, (st.h + r.h) % 2 ^ 32⟩

/-- Group a byte string into big-endian 32-bit words, 4 bytes per word. -/
def bytesToWords : List Nat → List Nat
  | b0 :: b1 :: b2 :: b3 :: rest =>
    (b0 * 2 ^ 24 + b1 * 2 ^ 16 + b2 * 2 ^ 8 + b3) :: bytesToWords rest
  | _ => []

/-- Split a byte string into 64-byte blocks of 16 words each. -/
def sha256Blocks (m : List Nat) : List (List Nat) :=
  if _h : m.length < 64 then []
  else bytesToWords (m.take 64) :: sha256Blocks (m.drop 64)
termination_by m.length
decreasing_by simp_wf; omega

/-- The SHA-256 message padding: `0x80`, zeros, and the 64-bit bit length. -/
def sha256Pad (m : List Nat) : List Nat :=
  let z := (64 - (m.length + 9) % 64) % 64
  let bits := m.length * 8
  m ++ [0x80] ++ List.replicate z 0 ++
    [bits / 2 ^ 56 % 256, bits / 2 ^ 48 % 256, bits / 2 ^ 40 % 256,
     bits / 2 ^ 32 % 256, bits / 2 ^ 24 % 256, bits / 2 ^ 16 % 256,
     bits / 2 ^ 8 % 256, bits % 256]

/-- Serialize a 32-bit word as 4 big-endian bytes. -/
def wordBytes (w : Nat) : List Nat :=
  [w / 2 ^ 24 % 256, w / 2 ^ 16 % 256, w / 2 ^ 8 % 256, w % 256]

/-- The SHA-256 digest (32 bytes) of a byte string. -/
def sha256 (m : List Nat) : List Nat :=
  let st := (sha256Blocks (sha256Pad m)).foldl sha256Compress sha256H0
  wordBytes st.a ++ wordBytes st.b ++ wordBytes st.c ++ wordBytes st.d ++
    wordBytes st.e ++ wordBytes st.f ++ wordBytes st.g ++ wordBytes st.h

/-- HMAC-SHA256 (RFC 2104): what `hmac.HMAC(key, SHA256())` computes over
the concatenation of all its `update` calls. -/
def hmacSha256 (key msg : List Nat) : List Nat :=
  let k0 := if key.length > 64 then sha256 key else key
  let k1 := k0 ++ List.replicate (64 - k0.length) 0
  let ipad := k1.map (fun x => x ^^^ 0x36)
  let opad := k1.map (fun x => x ^^^ 0x5c)
  sha256 (opad ++ sha256 (ipad ++ msg))

/-- The HKDF `info` label `b"file-server:aes256cbc+mac"` from `crypto.py`. -/
def hkdfInfoLabel : List Nat :=
  ("file-server:aes256cbc+mac".toList).map Char.toNat

/-- The fingerprint label `b"file-server:key-fingerprint:v1"` from `crypto.py`. -/
def fingerprintLabel : List Nat :=
  ("file-server:key-fingerprint:v1".toList).map Char.toNat

/-- HKDF-SHA256 expansion to 64 bytes with empty salt (RFC 5869; `salt=None`
means a 32-byte zero salt), as configured in `derive_encryption_and_mac_keys`. -/
def hkdfSha256_64 (ikm info : List Nat) : List Nat :=
  let prk := hmacSha256 (List.replicate 32 0) ikm
  let t1 := hmacSha256 prk (info ++ [1])
  let t2 := hmacSha256 prk (t1 ++ info ++ [2])
  (t1 ++ t2).take 64

/-- `derive_encryption_and_mac_keys` from `crypto.py`: HKDF-SHA256 with the
fixed info label expands the master key to 64 bytes, split `okm[:32]`,
`okm[32:64]`.  The source performs no length check on `master_key`. -/
def derive_encryption_and_mac_keys (master_key : List Nat) : List Nat × List Nat :=
  let okm := hkdfSha256_64 master_key hkdfInfoLabel
  (okm.take 32, (okm.drop 32).take 32)

/-- Hex digits, lower case, as `Char`s. -/
def hexDigitChar (n : Nat) : Char :=
  if n < 10 then Char.ofNat (48 + n) else Char.ofNat (87 + n)

/-- `bytes.hex()`: two lowercase hex digits per byte. -/
def bytesHex (b : List Nat) : List Char :=
  b.flatMap (fun x => [hexDigitChar (x / 16), hexDigitChar (x % 16)])

/-- `key_fingerprint` from `crypto.py`: derive the key pair, MAC the fixed
label with the MAC key, hex-encode and keep the first 16 hex characters. -/
def key_fingerprint (master_key : List Nat) : List Char :=
  let mac_key := (derive_encryption_and_mac_keys master_key).2
  let tag := hmacSha256 mac_key fingerprintLabel
  (bytesHex tag).take 16

/-! ## Streaming encryption (`encrypt_fileobj_to_path`)

The source streams `in_file` in `chunk_size` reads through the PKCS7
padder and the CBC encryptor to the sink at `out_path`, maintaining an
HMAC seeded with the IV and updated with each ciphertext chunk written.
The model carries the sink contents and the accumulated MAC input in the
state; the IV (16 bytes of `os.urandom`) is a parameter. -/

structure EncState where
  pad : List Nat
  prev : List Nat
  ebuf : List Nat
  macData : List Nat
  out : List Nat
  tin : Nat
  tout : Nat
deriving Repr, DecidableEq

/-- The body of one iteration of `encrypt_fileobj_to_path`'s read loop,
lines 99-109 of `crypto.py`: count the chunk, feed the padder, feed any
released blocks to the encryptor, and write/MAC any ciphertext produced
(the `if padded:` / `if ct:` guards skip the later stages when a stage
released nothing). -/
def encStep (E : List Nat → List Nat) (s : EncState) (chunk : List Nat) : EncState :=
  let s1 := { s with tin := s.tin + chunk.length }
  let pr := padderUpdate ⟨s1.pad⟩ chunk
  let s2 := { s1 with pad := pr.1.buf }
  if pr.2 = [] then s2
  else
    let er := encCtxUpdate E ⟨s2.prev, s2.ebuf⟩ pr.2
    let s3 := { s2 with prev := er.1.prev, ebuf := er.1.buf }
    if er.2 = [] then s3
    else
      { s3 with
        macData := s3.macData ++ er.2
        out := s3.out ++ er.2
        tout := s3.tout + er.2.length }

/-- The `while True` read loop of `encrypt_fileobj_to_path`, lines 98-109 of
`crypto.py`: read `chunk_size` bytes at a time until `read` returns an
empty chunk. -/
def encLoop (E : List Nat → List Nat) (cs : Nat) (s : EncState) (input : List Nat) :
    EncState :=
  if _h : input.take cs = [] then s
  else encLoop E cs (encStep E s (input.take cs)) (input.drop cs)
termination_by input.length
decreasing_by
  all_goals
    simp_wf
    have h2 : input ≠ [] := by intro he; subst he; simp at _h
    have h3 : cs ≠ 0 := by intro he; subst he; simp at _h
    have h4 := List.length_pos.mpr h2
    have h5 : (input.drop cs).length = input.length - cs := List.length_drop cs input
    omega

/-- What `encrypt_fileobj_to_path` returns, plus the bytes it wrote to the
sink at `out_path`. -/
structure EncResult where
  iv : List Nat
  bytesIn : Nat
  bytesOut : Nat
  tag : List Nat
  ciphertext : List Nat
deriving Repr, DecidableEq

/-- `encrypt_fileobj_to_path` from `crypto.py` (lines 75-119): stream the
plaintext through padder/encryptor/MAC, then finalize the padder, the
encryptor and the MAC.  `none` models the `ValueError` the encryptor's
`finalize` would raise on a leftover partial block (the 32-byte `enc_key`
is abstracted into the block permutation `E`). -/
def encrypt_fileobj_to_path (E : List Nat → List Nat) (mac_key iv plaintext : List Nat)
    (cs : Nat) : Option EncResult :=
  let s0 : EncState :=
    { pad := [], prev := iv, ebuf := [], macData := iv, out := [], tin := 0, tout := 0 }
  let s := encLoop E cs s0 plaintext
  let paddedFinal := padderFinalize ⟨s.pad⟩
  let er := encCtxUpdate E ⟨s.prev, s.ebuf⟩ paddedFinal
  if er.1.buf = [] then
    let s' :=
      if er.2 = [] then s
      else
        { s with
          macData := s.macData ++ er.2
          out := s.out ++ er.2
          tout := s.tout + er.2.length }
    some
      { iv := iv, bytesIn := s'.tin, bytesOut := s'.tout,
        tag := hmacSha256 mac_key s'.macData, ciphertext := s'.out }
  else none

/-! ## Streaming decryption (`decrypt_file_to_path`) -/

structure DecState where
  dbuf : List Nat
  prev : List Nat
  ubuf : List Nat
  macData : List Nat
  out : List Nat
  tin : Nat
  tout : Nat
deriving Repr, DecidableEq

/-- The body of one iteration of `decrypt_file_to_path`'s read loop, lines
148-158 of `crypto.py`: count and MAC the ciphertext chunk, decrypt any
released blocks, and write whatever the unpadder releases. -/
def decStep (D : List Nat → List Nat) (s : DecState) (chunk : List Nat) : DecState :=
  let s1 := { s with tin := s.tin + chunk.length, macData := s.macData ++ chunk }
  let dr := decCtxUpdate D ⟨s1.prev, s1.dbuf⟩ chunk
  let s2 := { s1 with prev := dr.1.prev, dbuf := dr.1.buf }
  if dr.2 = [] then s2
  else
    let ur := unpadderUpdate ⟨s2.ubuf⟩ dr.2
    let s3 := { s2 with ubuf := ur.1.buf }
    if ur.2 = [] then s3
    else { s3 with out := s3.out ++ ur.2, tout := s3.tout + ur.2.length }

/-- The `while True` read loop of `decrypt_file_to_path`, lines 147-158 of
`crypto.py`. -/
def decLoop (D : List Nat → List Nat) (cs : Nat) (s : DecState) (input : List Nat) :
    DecState :=
  if _h : input.take cs = [] then s
  else decLoop D cs (decStep D s (input.take cs)) (input.drop cs)
termination_by input.length
decreasing_by
  all_goals
    simp_wf
    have h2 : input ≠ [] := by intro he; subst he; simp at _h
    have h3 : cs ≠ 0 := by intro he; subst he; simp at _h
    have h4 := List.length_pos.mpr h2
    have h5 : (input.drop cs).length = input.length - cs := List.length_drop cs input
    omega

/-- The ways `decrypt_file_to_path` can raise. -/
inductive DecError where
  | blockAlign
  | badPadding
  | macMismatch
deriving Repr, DecidableEq

/-- The body of `decrypt_file_to_path`'s `try` block: the read loop, then
`decryptor.finalize()` (raises iff a partial block is buffered; the CBC
context otherwise returns `b""`), then `unpadder.finalize()`, then
`h.verify(expected_tag)`.  Returns the sink contents as written up to the
point the body ended, with the outcome. -/
def decryptRun (D : List Nat → List Nat) (mac_key iv expected_tag ciphertext : List Nat)
    (cs : Nat) : List Nat × Except DecError (Nat × Nat) :=
  let s0 : DecState :=
    { dbuf := [], prev := iv, ubuf := [], macData := iv, out := [], tin := 0, tout := 0 }
  let s := decLoop D cs s0 ciphertext
  if s.dbuf = [] then
    match unpadFinalize ⟨s.ubuf⟩ with
    | some tail =>
      let out' := if tail = [] then s.out else s.out ++ tail
      let tout' := if tail = [] then s.tout else s.tout + tail.length
      if hmacSha256 mac_key s.macData = expected_tag then
        (out', .ok (s.tin, tout'))
      else
        (out', .error .macMismatch)
    | none => (s.out, .error .badPadding)
  else (s.out, .error .blockAlign)

/-- `decrypt_file_to_path` from `crypto.py` (lines 122-182): run the `try`
body; on any failure delete the partial output at `out_path` and re-raise.
The first component is the file at `out_path` after the call (`none` when
it was removed); the second is the returned `(bytes_in, bytes_out)` or the
raised error. -/
def decrypt_file_to_path (D : List Nat → List Nat)
    (mac_key iv expected_tag ciphertext : List Nat) (cs : Nat) :
    Option (List Nat) × Except DecError (Nat × Nat) :=
  let r := decryptRun D mac_key iv expected_tag ciphertext cs
  match r.2 with
  | .ok v => (some r.1, .ok v)
  | .error e => (none, .error e)

/-! ## Python string decoders and `parse_master_key`

`parse_master_key` in `config.py` tries `base64.urlsafe_b64decode`, then
`bytes.fromhex`, then the raw UTF-8 encoding, accepting whichever first
yields 32 bytes.  The two standard-library decoders are modelled with
CPython's semantics: `b64decode` (non-validating) discards characters
outside the base64 alphabet and requires the remaining length to be a
multiple of 4; `bytes.fromhex` skips ASCII whitespace between byte pairs. -/

/-- The numeric value of a standard-base64-alphabet character, if any. -/
def b64Val (c : Char) : Option Nat :=
  let n := c.toNat
  if 65 ≤ n ∧ n ≤ 90 then some (n - 65)
  else if 97 ≤ n ∧ n ≤ 122 then some (n - 97 + 26)
  else if 48 ≤ n ∧ n ≤ 57 then some (n - 48 + 52)
  else if n = 43 then some 62
  else if n = 47 then some 63
  else none

/-- The standard base64 alphabet character for a 6-bit value, with `+` and
`/` replaced by `-` and `_` (the URL-safe alphabet). -/
def b64UrlChar (v : Nat) : Char :=
  if v < 26 then Char.ofNat (65 + v)
  else if v < 52 then Char.ofNat (97 + v - 26)
  else if v < 62 then Char.ofNat (48 + v - 52)
  else if v = 62 then '-'
  else '_'

/-- Decode a run of base64 quads (values already mapped; `none` entries are
`=` padding).  A padded quad must be final; a dangling partial quad is a
padding error.  Mirrors `binascii.a2b_base64` on the inputs this
development evaluates. -/
def b64Quads : List (Option Nat) → Option (List Nat)
  | [] => some []
  | some v1 :: some v2 :: some v3 :: some v4 :: rest => do
    let tail ← b64Quads rest
    pure ([v1 * 4 + v2 / 16, v2 % 16 * 16 + v3 / 4, v3 % 4 * 64 + v4] ++ tail)
  | [some v1, some v2, some v3, none] =>
    some [v1 * 4 + v2 / 16, v2 % 16 * 16 + v3 / 4]
  | [some v1, some v2, none, none] =>
    some [v1 * 4 + v2 / 16]
  | _ => none

/-- `base64.urlsafe_b64decode` on a Python `str`: translate `-`/`_` to
`+`/`/`, discard characters outside the alphabet (keeping `=`), and decode;
`none` models the `binascii.Error` raise. -/
def pyUrlsafeB64Decode (s : List Char) : Option (List Nat) :=
  let t := s.map (fun c => if c = '-' then '+' else if c = '_' then '/' else c)
  let kept := t.filter (fun c => (b64Val c).isSome || c = '=')
  b64Quads (kept.map (fun c => if c = '=' then none else b64Val c))

/-- The numeric value of a hex digit character, if any. -/
def hexVal (c : Char) : Option Nat :=
  let n := c.toNat
  if 48 ≤ n ∧ n ≤ 57 then some (n - 48)
  else if 97 ≤ n ∧ n ≤ 102 then some (n - 97 + 10)
  else if 65 ≤ n ∧ n ≤ 70 then some (n - 65 + 10)
  else none

/-- ASCII whitespace as `Py_ISSPACE` sees it. -/
def isPySpace (c : Char) : Bool :=
  c.toNat = 32 || c.toNat = 9 || c.toNat = 10 || c.toNat = 13 ||
    c.toNat = 11 || c.toNat = 12

/-- `bytes.fromhex`: skip ASCII whitespace between byte pairs, then demand
two immediately adjacent hex digits per byte; `none` models `ValueError`. -/
def pyFromHex : List Char → Option (List Nat)
  | [] => some []
  | c :: rest =>
    if isPySpace c then pyFromHex rest
    else
      match rest with
      | [] => none
      | d :: rest' => do
        let hi ← hexVal c
        let lo ← hexVal d
        let tail ← pyFromHex rest'
        pure ((hi * 16 + lo) :: tail)

/-- The UTF-8 encoding of one code point. -/
def utf8Char (c : Char) : List Nat :=
  let n := c.toNat
  if n < 0x80 then [n]
  else if n < 0x800 then [0xc0 + n / 64, 0x80 + n % 64]
  else if n < 0x10000 then [0xe0 + n / 4096, 0x80 + n / 64 % 64, 0x80 + n % 64]
  else
    [0xf0 + n / 262144, 0x80 + n / 4096 % 64, 0x80 + n / 64 % 64, 0x80 + n % 64]

/-- `value.encode("utf-8")` on a Python `str`. -/
def utf8Bytes (s : List Char) : List Nat := s.flatMap utf8Char

/-- The raw fallback of `parse_master_key` (lines 31-35 of `config.py`). -/
def parseRaw (value : List Char) : Option (List Nat) :=
  let raw := utf8Bytes value
  if raw.length = 32 then some raw else none

/-- The hex branch of `parse_master_key` (lines 24-29 of `config.py`):
accept a `bytes.fromhex` result only when it has 32 bytes, otherwise fall
through to the raw branch. -/
def parseHexOrRaw (value : List Char) : Option (List Nat) :=
  match pyFromHex value with
  | some d => if d.length = 32 then some d else parseRaw value
  | none => parseRaw value

/-- `parse_master_key` from `config.py` (lines 13-35): reject the empty
string, then try URL-safe base64, hex and raw UTF-8 in that order, each
accepted only when it decodes to exactly 32 bytes; `none` models the
`ValueError` raise. -/
def parse_master_key (value : List Char) : Option (List Nat) :=
  if value = [] then none
  else
    match pyUrlsafeB64Decode value with
    | some d => if d.length = 32 then some d else parseHexOrRaw value
    | none => parseHexOrRaw value

/-- URL-safe base64 encoding of a byte string (`base64.urlsafe_b64encode`),
used to state what "a URL-safe base64 encoding of 32 bytes" means. -/
def b64UrlEncode : List Nat → List Char
  | b1 :: b2 :: b3 :: rest =>
    b64UrlChar (b1 / 4) :: b64UrlChar (b1 % 4 * 16 + b2 / 16) ::
      b64UrlChar (b2 % 16 * 4 + b3 / 64) :: b64UrlChar (b3 % 64) ::
        b64UrlEncode rest
  | [b1, b2] =>
    [b64UrlChar (b1 / 4), b64UrlChar (b1 % 4 * 16 + b2 / 16),
     b64UrlChar (b2 % 16 * 4), '=']
  | [b1] => [b64UrlChar (b1 / 4), b64UrlChar (b1 % 4 * 16), '=', '=']
  | [] => []

/-- A 64-character string of hex digits (the spec's "64-character hex"). -/
def IsHex64 (s : List Char) : Prop :=
  s.length = 64 ∧ ∀ c ∈ s, (hexVal c).isSome

instance (s : List Char) : Decidable (IsHex64 s) := by
  unfold IsHex64; infer_instance

/-- A raw 32-byte key: a string whose UTF-8 encoding is 32 bytes long. -/
def IsRaw32 (s : List Char) : Prop := (utf8Bytes s).length = 32

instance (s : List Char) : Decidable (IsRaw32 s) := by
  unfold IsRaw32; infer_instance

/-- A URL-safe base64 encoding of some 32-byte sequence. -/
def IsB64Url32 (s : List Char) : Prop :=
  ∃ b : List Nat, b.length = 32 ∧ (∀ x ∈ b, x < 256) ∧ b64UrlEncode b = s

/-! ## The route handlers (`routes/files.py`)

The storage directory is modelled as a partial map from path strings
(`List Char`) to entries: ciphertext and partially-written files are raw
blobs, a completely written metadata document is a structured record (its
JSON serialization is transport detail; the record keeps the IV and tag as
the bytes the base64 fields decode to).  Randomness (`uuid4().hex` for the
artifact id, `os.urandom(16)` for the IV) and the parsed master key enter
as parameters. -/

/-- The persisted metadata document of one artifact (`metadata` dict built
in `encrypt_file`). -/
structure MetaRecord where
  fileId : List Char
  originalFilename : Option (List Char)
  bytesIn : Nat
  bytesOut : Nat
  iv : List Nat
  tag : List Nat
  keyFp : Option (List Char)
deriving Repr, DecidableEq

/-- One filesystem entry under the storage directory. -/
inductive FsEntry where
  | blob (data : List Nat)
  | metaDoc (m : MetaRecord)
deriving Repr, DecidableEq

/-- The storage directory contents. -/
def Fs : Type := List Char → Option FsEntry

/-- Write (or overwrite) one path. -/
def fsPut (fs : Fs) (p : List Char) (e : FsEntry) : Fs :=
  fun q => if q = p then some e else fs q

/-- `os.remove` on one path. -/
def fsRemove (fs : Fs) (p : List Char) : Fs :=
  fun q => if q = p then none else fs q

/-- `os.path.join(storage_dir, f"{file_id}.enc")`. -/
def encPathOf (storageDir fileId : List Char) : List Char :=
  storageDir ++ ('/' :: fileId) ++ ".enc".toList

/-- `os.path.join(storage_dir, f"{file_id}.json")`. -/
def metaPathOf (storageDir fileId : List Char) : List Char :=
  storageDir ++ ('/' :: fileId) ++ ".json".toList

/-- `os.path.join(storage_dir, f"{file_id}.dec.tmp")`. -/
def tmpPathOf (storageDir fileId : List Char) : List Char :=
  storageDir ++ ('/' :: fileId) ++ ".dec.tmp".toList

/-- How a route call can end as seen by the HTTP caller. -/
inductive ApiError where
  | notFound
  | keyMismatch
  | decryptFailed
  | storeFailed
deriving Repr, DecidableEq

/-- Where a storage fault strikes during `encrypt_file`'s `try` block: while
streaming ciphertext (some prefix was written to `<id>.enc`), or while
writing the metadata JSON (the `.enc` file is complete and `<id>.json` was
created but holds a partial document). -/
inductive EncFault where
  | noFault
  | duringEncrypt (partialCt : List Nat)
  | duringMetaWrite (partialDoc : List Nat)
deriving Repr, DecidableEq

/-- `encrypt_file` from `routes/files.py` (lines 24-80), after key parsing:
derive keys, stream-encrypt to `<id>.enc`, write `<id>.json`; on any
exception remove `<id>.enc` (and only it) and fail with 500.  Returns the
filesystem afterwards and the response (`ok` carries the new file id). -/
def encrypt_file (E : List Nat → List Nat) (storageDir : List Char)
    (masterKey : List Nat) (fs : Fs) (fileId : List Char)
    (originalFilename : Option (List Char)) (plaintext iv : List Nat) (cs : Nat)
    (fault : EncFault) : Fs × Except ApiError (List Char) :=
  let macKey := (derive_encryption_and_mac_keys masterKey).2
  let encPath := encPathOf storageDir fileId
  let metaPath := metaPathOf storageDir fileId
  match fault with
  | .duringEncrypt partialCt =>
    let fs1 := fsPut fs encPath (.blob partialCt)
    (fsRemove fs1 encPath, .error .storeFailed)
  | .duringMetaWrite partialDoc =>
    match encrypt_fileobj_to_path E macKey iv plaintext cs with
    | some r =>
      let fs1 := fsPut fs encPath (.blob r.ciphertext)
      let fs2 := fsPut fs1 metaPath (.blob partialDoc)
      (fsRemove fs2 encPath, .error .storeFailed)
    | none =>
      (fsRemove fs encPath, .error .storeFailed)
  | .noFault =>
    match encrypt_fileobj_to_path E macKey iv plaintext cs with
    | some r =>
      let fs1 := fsPut fs encPath (.blob r.ciphertext)
      let meta : MetaRecord :=
        { fileId := fileId, originalFilename := originalFilename,
          bytesIn := r.bytesIn, bytesOut := r.bytesOut,
          iv := r.iv, tag := r.tag,
          keyFp := some (key_fingerprint masterKey) }
      (fsPut fs1 metaPath (.metaDoc meta), .ok fileId)
    | none =>
      (fsRemove fs encPath, .error .storeFailed)

/-- `decrypt_by_id` from `routes/files.py` (lines 125-160), after key
parsing: 404 unless both `<id>.enc` and `<id>.json` exist, fingerprint
check against the stored `key_fp` before the ciphertext is opened, then
stream-decrypt to `<id>.dec.tmp` and serve that file.  `ok` carries the
path of the file the response serves. -/
def decrypt_by_id (D : List Nat → List Nat) (storageDir : List Char)
    (masterKey : List Nat) (fs : Fs) (fileId : List Char) (cs : Nat) :
    Fs × Except ApiError (List Char) :=
  let encKeys := derive_encryption_and_mac_keys masterKey
  let encPath := encPathOf storageDir fileId
  let metaPath := metaPathOf storageDir fileId
  match fs encPath, fs metaPath with
  | some (.blob ct), some (.metaDoc meta) =>
    if match meta.keyFp with
       | some fp => decide (key_fingerprint masterKey ≠ fp)
       | none => false then
      (fs, .error .keyMismatch)
    else
      let tmpOut := tmpPathOf storageDir fileId
      let dres := decrypt_file_to_path D encKeys.2 meta.iv meta.tag ct cs
      let fs' : Fs := fun q =>
        if q = tmpOut then dres.1.map .blob else fs q
      match dres.2 with
      | .ok _ => (fs', .ok tmpOut)
      | .error _ => (fs', .error .decryptFailed)
  | some _, some _ => (fs, .error .decryptFailed)
  | _, _ => (fs, .error .notFound)

/-- `delete_by_id` from `routes/files.py` (lines 163-183): remove
`<id>.enc` and `<id>.json` independently, report each removal, and 404
iff nothing was removed.  `ok` carries `(removed_enc, removed_meta)`. -/
def delete_by_id (storageDir : List Char) (fs : Fs) (fileId : List Char) :
    Fs × Except ApiError (Bool × Bool) :=
  let encPath := encPathOf storageDir fileId
  let metaPath := metaPathOf storageDir fileId
  let removedEnc := (fs encPath).isSome
  let fs1 := if removedEnc then fsRemove fs encPath else fs
  let removedMeta := (fs1 metaPath).isSome
  let fs2 := if removedMeta then fsRemove fs1 metaPath else fs1
  if removedEnc || removedMeta then (fs2, .ok (removedEnc, removedMeta))
  else (fs2, .error .notFound)

/-! ## Arithmetic and list helper lemmas -/

theorem floorB_le (n : Nat) : floorB n ≤ n := by unfold floorB; omega

theorem floorB_mod (n : Nat) : floorB n % 16 = 0 := by unfold floorB; omega

theorem floorB_of_mod (n : Nat) (h : n % 16 = 0) : floorB n = n := by unfold floorB; omega

theorem floorB_split (a b : Nat) :
    floorB (a + b) = floorB a + floorB (a % 16 + b) := by
  unfold floorB; omega

theorem cbcEncRun_nil (E : List Nat → List Nat) (prev : List Nat) :
    cbcEncRun E prev [] = (prev, []) := by
  rw [cbcEncRun]; simp

theorem cbcDecRun_nil (D : List Nat → List Nat) (prev : List Nat) :
    cbcDecRun D prev [] = (prev, []) := by
  rw [cbcDecRun]; simp

theorem cbcEncRun_step (E : List Nat → List Nat) (prev data : List Nat)
    (h : 16 ≤ data.length) :
    cbcEncRun E prev data =
      ((cbcEncRun E (E (xorBytes (data.take 16) prev)) (data.drop 16)).1,
        E (xorBytes (data.take 16) prev) ++
          (cbcEncRun E (E (xorBytes (data.take 16) prev)) (data.drop 16)).2) := by
  rw [cbcEncRun, dif_neg (by omega)]

theorem cbcDecRun_step (D : List Nat → List Nat) (prev data : List Nat)
    (h : 16 ≤ data.length) :
    cbcDecRun D prev data =
      ((cbcDecRun D (data.take 16) (data.drop 16)).1,
        xorBytes (D (data.take 16)) prev ++
          (cbcDecRun D (data.take 16) (data.drop 16)).2) := by
  rw [cbcDecRun, dif_neg (by omega)]

theorem cbcEncRun_append (E : List Nat → List Nat) (prev x y : List Nat)
    (hx : x.length % 16 = 0) :
    cbcEncRun E prev (x ++ y) =
      ((cbcEncRun E (cbcEncRun E prev x).1 y).1,
        (cbcEncRun E prev x).2 ++ (cbcEncRun E (cbcEncRun E prev x).1 y).2) := by
  by_cases h : x.length < 16
  · have hx0 : x.length = 0 := by omega
    have hxe : x = [] := List.length_eq_zero.mp hx0
    subst hxe
    simp [cbcEncRun_nil]
  · have h16 : 16 ≤ x.length := by omega
    have hxy16 : 16 ≤ (x ++ y).length := by rw [List.length_append]; omega
    rw [cbcEncRun_step E prev (x ++ y) hxy16, cbcEncRun_step E prev x h16]
    rw [List.take_append_of_le_length h16, List.drop_append_of_le_length h16]
    rw [cbcEncRun_append E (E (xorBytes (x.take 16) prev)) (x.drop 16) y
      (by rw [List.length_drop]; omega)]
    simp [List.append_assoc]
termination_by x.length
decreasing_by rw [List.length_drop]; omega

theorem cbcDecRun_append (D : List Nat → List Nat) (prev x y : List Nat)
    (hx : x.length % 16 = 0) :
    cbcDecRun D prev (x ++ y) =
      ((cbcDecRun D (cbcDecRun D prev x).1 y).1,
        (cbcDecRun D prev x).2 ++ (cbcDecRun D (cbcDecRun D prev x).1 y).2) := by
  by_cases h : x.length < 16
  · have hx0 : x.length = 0 := by omega
    have hxe : x = [] := List.length_eq_zero.mp hx0
    subst hxe
    simp [cbcDecRun_nil]
  · have h16 : 16 ≤ x.length := by omega
    have hxy16 : 16 ≤ (x ++ y).length := by rw [List.length_append]; omega
    rw [cbcDecRun_step D prev (x ++ y) hxy16, cbcDecRun_step D prev x h16]
    rw [List.take_append_of_le_length h16, List.drop_append_of_le_length h16]
    rw [cbcDecRun_append D (x.take 16) (x.drop 16) y
      (by rw [List.length_drop]; omega)]
    simp [List.append_assoc]
termination_by x.length
decreasing_by rw [List.length_drop]; omega

/-- `encryptor.update` on whole blocks with an empty input buffer: process
everything, buffer stays empty. -/
theorem encCtxUpdate_block (E : List Nat → List Nat) (prev data : List Nat)
    (hd : data.length % 16 = 0) :
    encCtxUpdate E ⟨prev, []⟩ data =
      (⟨(cbcEncRun E prev data).1, []⟩, (cbcEncRun E prev data).2) := by
  unfold encCtxUpdate
  simp only [List.nil_append]
  rw [floorB_of_mod _ hd, List.take_length, List.drop_length]

/-- `decryptor.update` buffering, phrased against a prefix decomposition:
feeding the next chunk when the buffer holds the sub-block tail of the
consumed prefix `c`. -/
theorem padderUpdate_inv (c chunk : List Nat) :
    padderUpdate ⟨c.drop (floorB c.length)⟩ chunk =
      (⟨(c ++ chunk).drop (floorB (c ++ chunk).length)⟩,
        ((c ++ chunk).drop (floorB c.length)).take
          (floorB (c.length % 16 + chunk.length))) := by
  have hm := floorB_le c.length
  have hb : c.drop (floorB c.length) ++ chunk = (c ++ chunk).drop (floorB c.length) :=
    (List.drop_append_of_le_length hm).symm
  unfold padderUpdate
  simp only [hb]
  have hlen : ((c ++ chunk).drop (floorB c.length)).length
      = c.length % 16 + chunk.length := by
    rw [List.length_drop, List.length_append]
    unfold floorB; omega
  have hfl : floorB ((c ++ chunk).drop (floorB c.length)).length
      = floorB (c.length % 16 + chunk.length) := by rw [hlen]
  rw [hfl]
  have hdd : ((c ++ chunk).drop (floorB c.length)).drop
        (floorB (c.length % 16 + chunk.length))
      = (c ++ chunk).drop (floorB (c ++ chunk).length) := by
    rw [List.drop_drop, List.length_append, floorB_split c.length chunk.length]
  rw [hdd]

/-! ## Closed form of the encrypt loop -/

/-- The plaintext with its PKCS7 padding. -/
def padAll (p : List Nat) : List Nat :=
  p ++ List.replicate (16 - p.length % 16) (16 - p.length % 16)

/-- The encrypt-loop state after the pipeline has consumed exactly the
prefix `c` of the plaintext: the padder holds the sub-block tail of `c`,
the encryptor has processed the whole blocks of `c`, and the sink/MAC have
seen the corresponding ciphertext. -/
def encStateOf (E : List Nat → List Nat) (iv c : List Nat) : EncState :=
  { pad := c.drop (floorB c.length)
    prev := (cbcEncRun E iv (c.take (floorB c.length))).1
    ebuf := []
    macData := iv ++ (cbcEncRun E iv (c.take (floorB c.length))).2
    out := (cbcEncRun E iv (c.take (floorB c.length))).2
    tin := c.length
    tout := (cbcEncRun E iv (c.take (floorB c.length))).2.length }

theorem encStep_eq (E : List Nat → List Nat) (iv c chunk : List Nat) :
    encStep E (encStateOf E iv c) chunk = encStateOf E iv (c ++ chunk) := by
  have hm := floorB_le c.length
  have hmn : floorB c.length + floorB (c.length % 16 + chunk.length)
      = floorB (c ++ chunk).length := by
    rw [List.length_append, floorB_split c.length chunk.length]
  have hfle := floorB_le (c ++ chunk).length
  have htm : (c ++ chunk).take (floorB c.length) = c.take (floorB c.length) :=
    List.take_append_of_le_length hm
  have hBlen : (((c ++ chunk).drop (floorB c.length)).take
      (floorB (c.length % 16 + chunk.length))).length
      = floorB (c.length % 16 + chunk.length) := by
    rw [List.length_take, List.length_drop, List.length_append]
    simp only [floorB]
    omega
  have hBmod : (((c ++ chunk).drop (floorB c.length)).take
      (floorB (c.length % 16 + chunk.length))).length % 16 = 0 := by
    rw [hBlen]; exact floorB_mod _
  have htmmod : ((c ++ chunk).take (floorB c.length)).length % 16 = 0 := by
    rw [List.length_take, List.length_append]
    have := floorB_mod c.length
    omega
  have hcbc : cbcEncRun E iv ((c ++ chunk).take (floorB (c ++ chunk).length))
      = ((cbcEncRun E (cbcEncRun E iv (c.take (floorB c.length))).1
            (((c ++ chunk).drop (floorB c.length)).take
              (floorB (c.length % 16 + chunk.length)))).1,
         (cbcEncRun E iv (c.take (floorB c.length))).2 ++
           (cbcEncRun E (cbcEncRun E iv (c.take (floorB c.length))).1
             (((c ++ chunk).drop (floorB c.length)).take
               (floorB (c.length % 16 + chunk.length)))).2) := by
    rw [← hmn, List.take_add, cbcEncRun_append E iv _ _ htmmod, htm]
  unfold encStep
  simp only [encStateOf, padderUpdate_inv c chunk]
  by_cases hB : ((c ++ chunk).drop (floorB c.length)).take
      (floorB (c.length % 16 + chunk.length)) = []
  · have hn0 : floorB (c.length % 16 + chunk.length) = 0 := by
      rw [← hBlen, hB]; rfl
    have hmm : floorB (c ++ chunk).length = floorB c.length := by omega
    rw [if_pos hB, hmm, htm, List.length_append]
  · rw [if_neg hB, encCtxUpdate_block E _ _ hBmod]
    by_cases hE : (cbcEncRun E (cbcEncRun E iv (c.take (floorB c.length))).1
        (((c ++ chunk).drop (floorB c.length)).take
          (floorB (c.length % 16 + chunk.length)))).2 = []
    · rw [if_pos hE, hcbc, hE]
      simp [List.length_append]
    · rw [if_neg hE, hcbc]
      simp [List.length_append]

theorem encLoop_eq (E : List Nat → List Nat) (cs : Nat) (hcs : 0 < cs)
    (iv c input : List Nat) :
    encLoop E cs (encStateOf E iv c) input = encStateOf E iv (c ++ input) := by
  generalize hn : input.length = n
  induction n using Nat.strong_induction_on generalizing c input with
  | _ n ih =>
  by_cases htk : input.take cs = []
  · rw [encLoop, dif_pos htk]
    have hinput : input = [] := by
      rcases List.take_eq_nil_iff.mp htk with h | h <;>
        first
        | exact h
        | exact absurd h (by omega)
    subst hinput
    simp
  · rw [encLoop, dif_neg htk, encStep_eq]
    have hlt : (input.drop cs).length < n := by
      rw [List.length_drop]
      have hcs : cs ≠ 0 := by rintro rfl; simp at htk
      have : input ≠ [] := by rintro rfl; simp at htk
      have := List.length_pos.mpr this
      omega
    rw [ih _ hlt (c ++ input.take cs) (input.drop cs) rfl]
    rw [List.append_assoc, List.take_append_drop]

/-- Closed form of the whole streaming encryption: for any positive chunk
size it produces exactly the CBC encryption of the PKCS7-padded plaintext,
together with the matching counters and the MAC of `IV ++ ciphertext`. -/
theorem encrypt_fileobj_eq (E : List Nat → List Nat) (mac_key iv p : List Nat)
    (cs : Nat) (hcs : 0 < cs) :
    encrypt_fileobj_to_path E mac_key iv p cs = some
      { iv := iv, bytesIn := p.length,
        bytesOut := (cbcEncRun E iv (padAll p)).2.length,
        tag := hmacSha256 mac_key (iv ++ (cbcEncRun E iv (padAll p)).2),
        ciphertext := (cbcEncRun E iv (padAll p)).2 } := by
  unfold encrypt_fileobj_to_path
  dsimp only
  have h0 : ({ pad := [], prev := iv, ebuf := [], macData := iv, out := [],
               tin := 0, tout := 0 } : EncState) = encStateOf E iv [] := by
    simp [encStateOf, cbcEncRun_nil, floorB]
  rw [h0, encLoop_eq E cs hcs iv [] p, List.nil_append]
  have hpl : (p.drop (floorB p.length)).length = p.length % 16 := by
    rw [List.length_drop]; unfold floorB; omega
  have hpf : padderFinalize ⟨p.drop (floorB p.length)⟩
      = p.drop (floorB p.length) ++
          List.replicate (16 - p.length % 16) (16 - p.length % 16) := by
    unfold padderFinalize
    rw [hpl]
  have hflen : (p.drop (floorB p.length) ++
      List.replicate (16 - p.length % 16) (16 - p.length % 16)).length % 16 = 0 := by
    rw [List.length_append, hpl, List.length_replicate]
    omega
  have htmod : (p.take (floorB p.length)).length % 16 = 0 := by
    rw [List.length_take]
    have := floorB_mod p.length
    have := floorB_le p.length
    omega
  have hglue : p.take (floorB p.length) ++ (p.drop (floorB p.length) ++
      List.replicate (16 - p.length % 16) (16 - p.length % 16)) = padAll p := by
    rw [← List.append_assoc, List.take_append_drop]
    rfl
  have hcbc := cbcEncRun_append E iv (p.take (floorB p.length))
    (p.drop (floorB p.length) ++
      List.replicate (16 - p.length % 16) (16 - p.length % 16)) htmod
  rw [hglue] at hcbc
  simp only [encStateOf, hpf, encCtxUpdate_block E _ _ hflen]
  rw [if_pos trivial]
  by_cases hF : (cbcEncRun E (cbcEncRun E iv (p.take (floorB p.length))).1
      (p.drop (floorB p.length) ++
        List.replicate (16 - p.length % 16) (16 - p.length % 16))).2 = []
  · simp only [if_pos hF, hcbc, hF]
    simp
  · simp only [if_neg hF, hcbc]
    simp [List.length_append, List.append_assoc]

/-! ## Closed form of the decrypt loop -/

theorem xorBytes_length (a b : List Nat) :
    (xorBytes a b).length = min a.length b.length := by
  unfold xorBytes
  exact List.length_zipWith _ a b

theorem xorBytes_cancel (a b : List Nat) (h : a.length ≤ b.length) :
    xorBytes (xorBytes a b) b = a := by
  induction a generalizing b with
  | nil => simp [xorBytes]
  | cons x xs ih =>
    cases b with
    | nil => simp at h
    | cons y ys =>
      simp only [xorBytes, List.zipWith_cons_cons] at *
      rw [Nat.xor_cancel_right, ih ys (by simpa using h)]

theorem cbcEncRun_length (E : List Nat → List Nat)
    (hE : ∀ b, b.length = 16 → (E b).length = 16) (prev data : List Nat)
    (hprev : prev.length = 16) (hdata : data.length % 16 = 0) :
    (cbcEncRun E prev data).2.length = data.length ∧
      (cbcEncRun E prev data).1.length = 16 := by
  by_cases h : data.length < 16
  · have h0 : data.length = 0 := by omega
    have : data = [] := List.length_eq_zero.mp h0
    subst this
    rw [cbcEncRun_nil]
    exact ⟨rfl, hprev⟩
  · have h16 : 16 ≤ data.length := by omega
    have hc : (E (xorBytes (data.take 16) prev)).length = 16 := by
      apply hE
      rw [xorBytes_length, List.length_take]
      omega
    have ih := cbcEncRun_length E hE (E (xorBytes (data.take 16) prev))
      (data.drop 16) hc (by rw [List.length_drop]; omega)
    rw [cbcEncRun_step E prev data h16]
    refine ⟨?_, ih.2⟩
    rw [List.length_append, hc, ih.1, List.length_drop]
    omega
termination_by data.length
decreasing_by rw [List.length_drop]; omega

theorem cbcDecRun_length (D : List Nat → List Nat)
    (hD : ∀ b, b.length = 16 → (D b).length = 16) (prev data : List Nat)
    (hprev : prev.length = 16) (hdata : data.length % 16 = 0) :
    (cbcDecRun D prev data).2.length = data.length ∧
      (cbcDecRun D prev data).1.length = 16 := by
  by_cases h : data.length < 16
  · have h0 : data.length = 0 := by omega
    have : data = [] := List.length_eq_zero.mp h0
    subst this
    rw [cbcDecRun_nil]
    exact ⟨rfl, hprev⟩
  · have h16 : 16 ≤ data.length := by omega
    have htl : (data.take 16).length = 16 := by rw [List.length_take]; omega
    have hpt : (xorBytes (D (data.take 16)) prev).length = 16 := by
      rw [xorBytes_length, hD _ htl, hprev]
      omega
    have ih := cbcDecRun_length D hD (data.take 16) (data.drop 16) htl
      (by rw [List.length_drop]; omega)
    rw [cbcDecRun_step D prev data h16]
    refine ⟨?_, ih.2⟩
    rw [List.length_append, hpt, ih.1, List.length_drop]
    omega
termination_by data.length
decreasing_by rw [List.length_drop]; omega

/-- `decryptor.update` at the invariant state: the buffer holds the
sub-block tail of the consumed ciphertext prefix `c`. -/
theorem decCtxUpdate_inv (D : List Nat → List Nat) (prev c chunk : List Nat) :
    decCtxUpdate D ⟨prev, c.drop (floorB c.length)⟩ chunk =
      (⟨(cbcDecRun D prev (((c ++ chunk).drop (floorB c.length)).take
            (floorB (c.length % 16 + chunk.length)))).1,
         (c ++ chunk).drop (floorB (c ++ chunk).length)⟩,
       (cbcDecRun D prev (((c ++ chunk).drop (floorB c.length)).take
            (floorB (c.length % 16 + chunk.length)))).2) := by
  have hm := floorB_le c.length
  have hb : c.drop (floorB c.length) ++ chunk = (c ++ chunk).drop (floorB c.length) :=
    (List.drop_append_of_le_length hm).symm
  unfold decCtxUpdate
  simp only [hb]
  have hlen : ((c ++ chunk).drop (floorB c.length)).length
      = c.length % 16 + chunk.length := by
    rw [List.length_drop, List.length_append]
    unfold floorB; omega
  have hfl : floorB ((c ++ chunk).drop (floorB c.length)).length
      = floorB (c.length % 16 + chunk.length) := by rw [hlen]
  rw [hfl]
  have hdd : ((c ++ chunk).drop (floorB c.length)).drop
        (floorB (c.length % 16 + chunk.length))
      = (c ++ chunk).drop (floorB (c ++ chunk).length) := by
    rw [List.drop_drop, List.length_append, floorB_split c.length chunk.length]
  rw [hdd]

/-- `unpadder.update` at the invariant state: the buffer holds the trailing
block of the padded plaintext prefix `P`, and a whole-block piece `x`
arrives. -/
theorem unpadderUpdate_inv (P x : List Nat) (hP : P.length % 16 = 0)
    (hx : x.length % 16 = 0) :
    unpadderUpdate ⟨P.drop (P.length - 16)⟩ x =
      (⟨(P ++ x).drop ((P ++ x).length - 16)⟩,
       ((P ++ x).drop (P.length - 16)).take
          ((P ++ x).length - 16 - (P.length - 16))) := by
  have hm : P.length - 16 ≤ P.length := by omega
  have hb : P.drop (P.length - 16) ++ x = (P ++ x).drop (P.length - 16) :=
    (List.drop_append_of_le_length hm).symm
  unfold unpadderUpdate
  simp only [hb]
  have hlen : ((P ++ x).drop (P.length - 16)).length
      = P.length + x.length - (P.length - 16) := by
    rw [List.length_drop, List.length_append]
  have hcut : (((P ++ x).drop (P.length - 16)).length / 16 - 1) * 16
      = (P ++ x).length - 16 - (P.length - 16) := by
    rw [hlen, List.length_append]
    omega
  rw [hcut]
  have hdd : ((P ++ x).drop (P.length - 16)).drop
        ((P ++ x).length - 16 - (P.length - 16))
      = (P ++ x).drop ((P ++ x).length - 16) := by
    rw [List.drop_drop]
    congr 1
    rw [List.length_append]
    omega
  rw [hdd]

/-- The decrypt-loop state after the pipeline has consumed exactly the
prefix `c` of the ciphertext: the decryptor buffers the sub-block tail of
`c`, the unpadder buffers the trailing block of the decrypted whole-block
prefix, and the sink holds everything before that block. -/
def decStateOf (D : List Nat → List Nat) (iv c : List Nat) : DecState :=
  { dbuf := c.drop (floorB c.length)
    prev := (cbcDecRun D iv (c.take (floorB c.length))).1
    ubuf := (cbcDecRun D iv (c.take (floorB c.length))).2.drop
        ((cbcDecRun D iv (c.take (floorB c.length))).2.length - 16)
    macData := iv ++ c
    out := (cbcDecRun D iv (c.take (floorB c.length))).2.take
        ((cbcDecRun D iv (c.take (floorB c.length))).2.length - 16)
    tin := c.length
    tout := ((cbcDecRun D iv (c.take (floorB c.length))).2.take
        ((cbcDecRun D iv (c.take (floorB c.length))).2.length - 16)).length }

/-- Gluing the unpadder's released output onto what was already written:
the sink always holds everything but the trailing block. -/
theorem unpad_out_glue (P Q : List Nat) :
    P.take (P.length - 16) ++ ((P ++ Q).drop (P.length - 16)).take
        ((P ++ Q).length - 16 - (P.length - 16))
      = (P ++ Q).take ((P ++ Q).length - 16) := by
  have he : (P ++ Q).length - 16
      = (P.length - 16) + ((P ++ Q).length - 16 - (P.length - 16)) := by
    rw [List.length_append]; omega
  conv_rhs => rw [he, List.take_add]
  congr 1
  rw [List.take_append_of_le_length (by omega)]

theorem decStep_eq (D : List Nat → List Nat)
    (hD : ∀ b, b.length = 16 → (D b).length = 16) (iv c chunk : List Nat)
    (hiv : iv.length = 16) :
    decStep D (decStateOf D iv c) chunk = decStateOf D iv (c ++ chunk) := by
  have hm := floorB_le c.length
  have hmn : floorB c.length + floorB (c.length % 16 + chunk.length)
      = floorB (c ++ chunk).length := by
    rw [List.length_append, floorB_split c.length chunk.length]
  have htm : (c ++ chunk).take (floorB c.length) = c.take (floorB c.length) :=
    List.take_append_of_le_length hm
  have hBlen : (((c ++ chunk).drop (floorB c.length)).take
      (floorB (c.length % 16 + chunk.length))).length
      = floorB (c.length % 16 + chunk.length) := by
    rw [List.length_take, List.length_drop, List.length_append]
    simp only [floorB]
    omega
  have hBmod : (((c ++ chunk).drop (floorB c.length)).take
      (floorB (c.length % 16 + chunk.length))).length % 16 = 0 := by
    rw [hBlen]; exact floorB_mod _
  have htmmod : (c.take (floorB c.length)).length % 16 = 0 := by
    rw [List.length_take]
    have := floorB_mod c.length
    omega
  have hPfull := cbcDecRun_length D hD iv (c.take (floorB c.length)) hiv htmmod
  have hPmod : (cbcDecRun D iv (c.take (floorB c.length))).2.length % 16 = 0 := by
    rw [hPfull.1]; exact htmmod
  have hQfull := cbcDecRun_length D hD (cbcDecRun D iv (c.take (floorB c.length))).1
    (((c ++ chunk).drop (floorB c.length)).take
      (floorB (c.length % 16 + chunk.length))) hPfull.2 hBmod
  have hQmod : (cbcDecRun D (cbcDecRun D iv (c.take (floorB c.length))).1
      (((c ++ chunk).drop (floorB c.length)).take
        (floorB (c.length % 16 + chunk.length)))).2.length % 16 = 0 := by
    rw [hQfull.1]; exact hBmod
  have htmmod2 : ((c ++ chunk).take (floorB c.length)).length % 16 = 0 := by
    rw [htm]; exact htmmod
  have hcbc : cbcDecRun D iv ((c ++ chunk).take (floorB (c ++ chunk).length))
      = ((cbcDecRun D (cbcDecRun D iv (c.take (floorB c.length))).1
            (((c ++ chunk).drop (floorB c.length)).take
              (floorB (c.length % 16 + chunk.length)))).1,
         (cbcDecRun D iv (c.take (floorB c.length))).2 ++
           (cbcDecRun D (cbcDecRun D iv (c.take (floorB c.length))).1
             (((c ++ chunk).drop (floorB c.length)).take
               (floorB (c.length % 16 + chunk.length)))).2) := by
    rw [← hmn, List.take_add, cbcDecRun_append D iv _ _ htmmod2, htm]
  unfold decStep
  simp only [decStateOf, decCtxUpdate_inv]
  rw [hcbc]
  dsimp only
  by_cases hQ : (cbcDecRun D (cbcDecRun D iv (c.take (floorB c.length))).1
      (((c ++ chunk).drop (floorB c.length)).take
        (floorB (c.length % 16 + chunk.length)))).2 = []
  · rw [if_pos hQ, hQ]
    simp [List.append_assoc]
  · rw [if_neg hQ, unpadderUpdate_inv _ _ hPmod hQmod]
    rw [← unpad_out_glue (cbcDecRun D iv (c.take (floorB c.length))).2
      (cbcDecRun D (cbcDecRun D iv (c.take (floorB c.length))).1
        (((c ++ chunk).drop (floorB c.length)).take
          (floorB (c.length % 16 + chunk.length)))).2]
    by_cases hur : (((cbcDecRun D iv (c.take (floorB c.length))).2 ++
        (cbcDecRun D (cbcDecRun D iv (c.take (floorB c.length))).1
          (((c ++ chunk).drop (floorB c.length)).take
            (floorB (c.length % 16 + chunk.length)))).2).drop
          ((cbcDecRun D iv (c.take (floorB c.length))).2.length - 16)).take
          (((cbcDecRun D iv (c.take (floorB c.length))).2 ++
            (cbcDecRun D (cbcDecRun D iv (c.take (floorB c.length))).1
              (((c ++ chunk).drop (floorB c.length)).take
                (floorB (c.length % 16 + chunk.length)))).2).length - 16 -
            ((cbcDecRun D iv (c.take (floorB c.length))).2.length - 16)) = []
    · rw [if_pos hur, hur]
      simp [List.append_assoc]
    · rw [if_neg hur]
      simp [List.append_assoc, List.length_append]

theorem decLoop_eq (D : List Nat → List Nat)
    (hD : ∀ b, b.length = 16 → (D b).length = 16) (cs : Nat) (hcs : 0 < cs)
    (iv c input : List Nat) (hiv : iv.length = 16) :
    decLoop D cs (decStateOf D iv c) input = decStateOf D iv (c ++ input) := by
  generalize hn : input.length = n
  induction n using Nat.strong_induction_on generalizing c input with
  | _ n ih =>
  by_cases htk : input.take cs = []
  · rw [decLoop, dif_pos htk]
    have hinput : input = [] := by
      rcases List.take_eq_nil_iff.mp htk with h | h <;>
        first
        | exact h
        | exact absurd h (by omega)
    subst hinput
    simp
  · rw [decLoop, dif_neg htk, decStep_eq D hD iv c _ hiv]
    have hlt : (input.drop cs).length < n := by
      rw [List.length_drop]
      have hcs0 : cs ≠ 0 := by rintro rfl; simp at htk
      have : input ≠ [] := by rintro rfl; simp at htk
      have := List.length_pos.mpr this
      omega
    rw [ih _ hlt (c ++ input.take cs) (input.drop cs) rfl]
    rw [List.append_assoc, List.take_append_drop]

/-- CBC decryption inverts CBC encryption block by block. -/
theorem cbcDec_of_cbcEnc (E D : List Nat → List Nat)
    (hED : ∀ b, D (E b) = b)
    (hE : ∀ b, b.length = 16 → (E b).length = 16)
    (prev P : List Nat) (hprev : prev.length = 16) (hP : P.length % 16 = 0) :
    (cbcDecRun D prev (cbcEncRun E prev P).2).2 = P := by
  by_cases h : P.length < 16
  · have h0 : P.length = 0 := by omega
    have : P = [] := List.length_eq_zero.mp h0
    subst this
    rw [cbcEncRun_nil, cbcDecRun_nil]
  · have h16 : 16 ≤ P.length := by omega
    have hxl : (xorBytes (P.take 16) prev).length = 16 := by
      rw [xorBytes_length, List.length_take]
      omega
    have hcl : (E (xorBytes (P.take 16) prev)).length = 16 := hE _ hxl
    rw [cbcEncRun_step E prev P h16]
    have hct16 : 16 ≤ (E (xorBytes (P.take 16) prev) ++
        (cbcEncRun E (E (xorBytes (P.take 16) prev)) (P.drop 16)).2).length := by
      rw [List.length_append, hcl]
      omega
    rw [cbcDecRun_step D prev _ hct16]
    have htk : (E (xorBytes (P.take 16) prev) ++
        (cbcEncRun E (E (xorBytes (P.take 16) prev)) (P.drop 16)).2).take 16
        = E (xorBytes (P.take 16) prev) := List.take_left' hcl
    have hdr : (E (xorBytes (P.take 16) prev) ++
        (cbcEncRun E (E (xorBytes (P.take 16) prev)) (P.drop 16)).2).drop 16
        = (cbcEncRun E (E (xorBytes (P.take 16) prev)) (P.drop 16)).2 :=
      List.drop_left' hcl
    rw [htk, hdr, hED]
    have hx : xorBytes (xorBytes (P.take 16) prev) prev = P.take 16 := by
      apply xorBytes_cancel
      rw [List.length_take, hprev]
      omega
    rw [hx]
    have ih := cbcDec_of_cbcEnc E D hED hE (E (xorBytes (P.take 16) prev))
      (P.drop 16) hcl (by rw [List.length_drop]; omega)
    rw [ih]
    exact List.take_append_drop 16 P
termination_by P.length
decreasing_by rw [List.length_drop]; omega

theorem padAll_length (p : List Nat) :
    (padAll p).length = p.length + (16 - p.length % 16) := by
  unfold padAll
  rw [List.length_append, List.length_replicate]

theorem padAll_mod (p : List Nat) : (padAll p).length % 16 = 0 := by
  rw [padAll_length]
  omega

/-- The last element of a list ending in a nonempty `replicate`. -/
theorem getLast?_append_replicate (xs : List Nat) (k v : Nat) (hk : 1 ≤ k) :
    (xs ++ List.replicate k v).getLast? = some v := by
  obtain ⟨j, rfl⟩ : ∃ j, k = j + 1 := ⟨k - 1, by omega⟩
  rw [List.replicate_succ', ← List.append_assoc, List.getLast?_concat]

/-- Evaluating `unpadder.finalize()` on the trailing block of a correctly
padded plaintext: the check passes and the padding is stripped. -/
theorem unpadFinalize_padAll (p : List Nat) :
    unpadFinalize ⟨(padAll p).drop ((padAll p).length - 16)⟩
      = some (p.drop (floorB p.length)) := by
  have hr : p.length % 16 < 16 := Nat.mod_lt _ (by omega)
  have hcut : (padAll p).length - 16 = floorB p.length := by
    rw [padAll_length]
    unfold floorB
    omega
  have hsplit : (padAll p).drop ((padAll p).length - 16)
      = p.drop (floorB p.length) ++
        List.replicate (16 - p.length % 16) (16 - p.length % 16) := by
    rw [hcut]
    unfold padAll
    rw [List.drop_append_of_le_length (floorB_le p.length)]
  have hdlen : (p.drop (floorB p.length)).length = p.length % 16 := by
    rw [List.length_drop]
    unfold floorB
    omega
  have hblen : ((padAll p).drop ((padAll p).length - 16)).length = 16 := by
    rw [hsplit, List.length_append, hdlen, List.length_replicate]
    omega
  have hlast : ((padAll p).drop ((padAll p).length - 16)).getLast?
      = some (16 - p.length % 16) := by
    rw [hsplit]
    exact getLast?_append_replicate _ _ _ (by omega)
  have hdropPad : ((padAll p).drop ((padAll p).length - 16)).drop
      (16 - (16 - p.length % 16))
      = List.replicate (16 - p.length % 16) (16 - p.length % 16) := by
    rw [hsplit]
    apply List.drop_left'
    rw [hdlen]
    omega
  have htakePad : ((padAll p).drop ((padAll p).length - 16)).take
      (16 - (16 - p.length % 16))
      = p.drop (floorB p.length) := by
    rw [hsplit]
    apply List.take_left'
    rw [hdlen]
    omega
  unfold unpadFinalize
  rw [if_pos hblen]
  simp only [hlast, Option.getD_some]
  rw [if_pos ⟨by omega, by omega, hdropPad⟩, htakePad]

/-- Stitching the decrypt sink back together: everything before the
trailing block plus the unpadded tail is exactly the plaintext. -/
theorem padAll_out_glue (p : List Nat) :
    (padAll p).take ((padAll p).length - 16) ++ p.drop (floorB p.length) = p := by
  have hcut : (padAll p).length - 16 = floorB p.length := by
    rw [padAll_length]
    unfold floorB
    omega
  rw [hcut]
  have htake : (padAll p).take (floorB p.length) = p.take (floorB p.length) := by
    unfold padAll
    exact List.take_append_of_le_length (floorB_le p.length)
  rw [htake, List.take_append_drop]

/-- Closed form of the whole streaming decryption on a well-formed
ciphertext: `decrypt_file_to_path` applied to the CBC encryption of a
padded plaintext, with the matching tag, recovers exactly the plaintext. -/
theorem decryptRun_valid (E D : List Nat → List Nat) (mac_key iv p : List Nat)
    (cs : Nat)
    (hED : ∀ b, D (E b) = b)
    (hE : ∀ b, b.length = 16 → (E b).length = 16)
    (hD : ∀ b, b.length = 16 → (D b).length = 16)
    (hiv : iv.length = 16) (hcs : 0 < cs) :
    decryptRun D mac_key iv
        (hmacSha256 mac_key (iv ++ (cbcEncRun E iv (padAll p)).2))
        (cbcEncRun E iv (padAll p)).2 cs
      = (p, .ok ((cbcEncRun E iv (padAll p)).2.length, p.length)) := by
  unfold decryptRun
  dsimp only
  have h0 : ({ dbuf := [], prev := iv, ubuf := [], macData := iv, out := [],
               tin := 0, tout := 0 } : DecState) = decStateOf D iv [] := by
    simp [decStateOf, cbcDecRun_nil, floorB]
  rw [h0, decLoop_eq D hD cs hcs iv [] _ hiv, List.nil_append]
  have hCTlen : (cbcEncRun E iv (padAll p)).2.length = (padAll p).length :=
    (cbcEncRun_length E hE iv (padAll p) hiv (padAll_mod p)).1
  have hCTmod : (cbcEncRun E iv (padAll p)).2.length % 16 = 0 := by
    rw [hCTlen]; exact padAll_mod p
  have hdb : (cbcEncRun E iv (padAll p)).2.drop
      (floorB (cbcEncRun E iv (padAll p)).2.length) = [] := by
    rw [floorB_of_mod _ hCTmod, List.drop_length]
  have htake : (cbcEncRun E iv (padAll p)).2.take
      (floorB (cbcEncRun E iv (padAll p)).2.length)
      = (cbcEncRun E iv (padAll p)).2 := by
    rw [floorB_of_mod _ hCTmod, List.take_length]
  simp only [decStateOf, hdb, htake]
  rw [if_pos trivial]
  rw [cbcDec_of_cbcEnc E D hED hE iv (padAll p) hiv (padAll_mod p),
    unpadFinalize_padAll p]
  dsimp only
  rw [if_pos trivial]
  have htout := congrArg List.length (padAll_out_glue p)
  rw [List.length_append] at htout
  by_cases htail : p.drop (floorB p.length) = []
  · simp only [if_pos htail]
    have hout := padAll_out_glue p
    rw [htail, List.append_nil] at hout
    rw [htail, List.length_nil, Nat.add_zero] at htout
    rw [htout, hout]
  · simp only [if_neg htail]
    rw [padAll_out_glue p, htout]

/-- One decrypt-loop iteration always appends the chunk it read to the
running MAC input, whatever the cipher and unpadder stages release. -/
theorem decStep_macData (D : List Nat → List Nat) (s : DecState) (chunk : List Nat) :
    (decStep D s chunk).macData = s.macData ++ chunk := by
  unfold decStep
  dsimp only
  split_ifs <;> rfl

/-- The decrypt loop reads the whole file, so the MAC input is the seed
followed by every ciphertext byte in read order. -/
theorem decLoop_macData (D : List Nat → List Nat) (cs : Nat) (hcs : 0 < cs)
    (s : DecState) (input : List Nat) :
    (decLoop D cs s input).macData = s.macData ++ input := by
  generalize hn : input.length = n
  induction n using Nat.strong_induction_on generalizing s input with
  | _ n ih =>
  by_cases htk : input.take cs = []
  · rw [decLoop, dif_pos htk]
    have hinput : input = [] := by
      rcases List.take_eq_nil_iff.mp htk with h | h <;>
        first
        | exact h
        | exact absurd h (by omega)
    subst hinput
    simp
  · rw [decLoop, dif_neg htk]
    have hlt : (input.drop cs).length < n := by
      rw [List.length_drop]
      have hcs0 : cs ≠ 0 := by rintro rfl; simp at htk
      have : input ≠ [] := by rintro rfl; simp at htk
      have := List.length_pos.mpr this
      omega
    rw [ih _ hlt _ (input.drop cs) rfl, decStep_macData, List.append_assoc,
      List.take_append_drop]

/-- A successful `decryptRun` implies the MAC of `IV ++ ciphertext` matched
the expected tag. -/
theorem decryptRun_ok_mac (D : List Nat → List Nat)
    (mac_key iv expected_tag ct : List Nat) (cs : Nat) (hcs : 0 < cs)
    (v : Nat × Nat)
    (h : (decryptRun D mac_key iv expected_tag ct cs).2 = Except.ok v) :
    hmacSha256 mac_key (iv ++ ct) = expected_tag := by
  unfold decryptRun at h
  dsimp only at h
  have hm : (decLoop D cs
      { dbuf := [], prev := iv, ubuf := [], macData := iv, out := [],
        tin := 0, tout := 0 } ct).macData = iv ++ ct :=
    decLoop_macData D cs hcs _ ct
  rw [hm] at h
  split at h
  · split at h
    · split at h
      · assumption
      · simp at h
    · simp at h
  · simp at h

/-- C1: round trip.  For every plaintext (any length, hence in particular
lengths 0, 1, 15, 16, 17, chunkSize−1, chunkSize, chunkSize+1 and
multi-chunk sizes), every MAC key, every 16-byte IV, every AES-256 block
permutation (a length-preserving pair of mutually inverse 16-byte block
maps, standing for the keyed cipher on any 32-byte key) and any positive
chunk sizes, decrypting the output of `encrypt_fileobj_to_path` with
`decrypt_file_to_path`, using the IV and tag that encrypt returned, writes
exactly the original plaintext to the sink and succeeds. -/
theorem C1_round_trip (E D : List Nat → List Nat) (mac_key iv p : List Nat)
    (cs1 cs2 : Nat) (r : EncResult)
    (hED : ∀ b, D (E b) = b)
    (hE : ∀ b, b.length = 16 → (E b).length = 16)
    (hD : ∀ b, b.length = 16 → (D b).length = 16)
    (hiv : iv.length = 16) (hcs1 : 0 < cs1) (hcs2 : 0 < cs2)
    (henc : encrypt_fileobj_to_path E mac_key iv p cs1 = some r) :
    decrypt_file_to_path D mac_key r.iv r.tag r.ciphertext cs2
      = (some p, Except.ok (r.ciphertext.length, p.length)) := by
  rw [encrypt_fileobj_eq E mac_key iv p cs1 hcs1] at henc
  obtain rfl := Option.some.inj henc
  dsimp only
  unfold decrypt_file_to_path
  rw [decryptRun_valid E D mac_key iv p cs2 hED hE hD hiv hcs2]

/-- C2: the tag returned by `encrypt_fileobj_to_path` is the MAC, under the
MAC key, of the IV followed by the emitted ciphertext, in that order: the
running MAC is seeded with the IV, updated with the ciphertext chunks in
emission order and finalized once. -/
theorem C2_tag_is_mac_of_iv_ct (E : List Nat → List Nat)
    (mac_key iv p : List Nat) (cs : Nat) (hcs : 0 < cs) (r : EncResult)
    (henc : encrypt_fileobj_to_path E mac_key iv p cs = some r) :
    r.tag = hmacSha256 mac_key (r.iv ++ r.ciphertext) := by
  rw [encrypt_fileobj_eq E mac_key iv p cs hcs] at henc
  obtain rfl := Option.some.inj henc
  rfl

/-- C9: the padder always adds between 1 and 16 bytes (16 for empty or
block-aligned input), so `bytes_out` is `bytes_in` rounded up to the next
strictly larger multiple of 16; in particular it is a positive multiple
of 16. -/
theorem C9_padding_counters (E : List Nat → List Nat) (mac_key iv p : List Nat)
    (cs : Nat) (hcs : 0 < cs)
    (hE : ∀ b, b.length = 16 → (E b).length = 16) (hiv : iv.length = 16)
    (r : EncResult)
    (henc : encrypt_fileobj_to_path E mac_key iv p cs = some r) :
    r.bytesIn = p.length ∧
    r.bytesOut = r.bytesIn + (16 - r.bytesIn % 16) ∧
    1 ≤ 16 - r.bytesIn % 16 ∧ 16 - r.bytesIn % 16 ≤ 16 ∧
    r.bytesOut % 16 = 0 ∧ 0 < r.bytesOut := by
  rw [encrypt_fileobj_eq E mac_key iv p cs hcs] at henc
  obtain rfl := Option.some.inj henc
  dsimp only
  have hlen := (cbcEncRun_length E hE iv (padAll p) hiv (padAll_mod p)).1
  rw [hlen, padAll_length]
  refine ⟨rfl, ?_, ?_, ?_, ?_, ?_⟩ <;> omega

/-- C3: on any failure inside `decrypt_file_to_path` — including a final
MAC mismatch — the partial output file is deleted before the error is
raised (no partially-decrypted file remains), and whenever the MAC of
`IV ++ ciphertext` does not match the expected tag the call cannot
succeed. -/
theorem C3_cleanup_on_failure (D : List Nat → List Nat)
    (mac_key iv expected_tag ct : List Nat) (cs : Nat) (hcs : 0 < cs) :
    (∀ e, (decrypt_file_to_path D mac_key iv expected_tag ct cs).2 = Except.error e →
      (decrypt_file_to_path D mac_key iv expected_tag ct cs).1 = none) ∧
    (hmacSha256 mac_key (iv ++ ct) ≠ expected_tag →
      ∀ v, (decrypt_file_to_path D mac_key iv expected_tag ct cs).2 ≠ Except.ok v) := by
  constructor
  · intro e he
    unfold decrypt_file_to_path at he ⊢
    dsimp only at he ⊢
    cases hr : (decryptRun D mac_key iv expected_tag ct cs).2 with
    | ok v => simp [hr] at he
    | error e' => simp [hr]
  · intro hne v hv
    unfold decrypt_file_to_path at hv
    dsimp only at hv
    cases hr : (decryptRun D mac_key iv expected_tag ct cs).2 with
    | ok w =>
      exact hne (decryptRun_ok_mac D mac_key iv expected_tag ct cs hcs w hr)
    | error e' => simp [hr] at hv

/-! ## Route-level theorems -/

theorem encPath_ne_metaPath (sd fid : List Char) :
    encPathOf sd fid ≠ metaPathOf sd fid := by
  intro h
  have := congrArg List.length h
  simp [encPathOf, metaPathOf, List.length_append] at this

/-- C8: `delete_by_id` attempts the two removals independently and reports
each; it returns `NotFound` exactly when neither sub-resource existed, and
deleting an id with only a ciphertext blob present reports the ciphertext
removed and the metadata not removed. -/
theorem C8_delete_independent (storageDir fileId : List Char) (fs : Fs) :
    ((delete_by_id storageDir fs fileId).2 = Except.error ApiError.notFound ↔
      (fs (encPathOf storageDir fileId) = none ∧
        fs (metaPathOf storageDir fileId) = none)) ∧
    (∀ b1 b2, (delete_by_id storageDir fs fileId).2 = Except.ok (b1, b2) →
      b1 = (fs (encPathOf storageDir fileId)).isSome ∧
        b2 = (fs (metaPathOf storageDir fileId)).isSome) ∧
    ((fs (encPathOf storageDir fileId)).isSome →
      fs (metaPathOf storageDir fileId) = none →
      (delete_by_id storageDir fs fileId).2 = Except.ok (true, false)) := by
  have hne := encPath_ne_metaPath storageDir fileId
  unfold delete_by_id
  dsimp only
  have hmeta : (if (fs (encPathOf storageDir fileId)).isSome
      then fsRemove fs (encPathOf storageDir fileId) else fs)
        (metaPathOf storageDir fileId)
      = fs (metaPathOf storageDir fileId) := by
    split
    · unfold fsRemove
      rw [if_neg (fun h => hne h.symm)]
    · rfl
  rw [hmeta]
  rcases he : fs (encPathOf storageDir fileId) with _ | eEnc <;>
    rcases hm : fs (metaPathOf storageDir fileId) with _ | eMeta <;>
      simp [he, hm]

theorem bytesHex_length (b : List Nat) : (bytesHex b).length = 2 * b.length := by
  induction b with
  | nil => rfl
  | cons x xs ih =>
    simp [bytesHex] at ih ⊢
    omega

theorem sha256_length (m : List Nat) : (sha256 m).length = 32 := by
  unfold sha256
  dsimp only
  simp [wordBytes]

theorem hmacSha256_length (k m : List Nat) : (hmacSha256 k m).length = 32 :=
  sha256_length _

theorem key_fingerprint_length (k : List Nat) : (key_fingerprint k).length = 16 := by
  unfold key_fingerprint
  dsimp only
  rw [List.length_take, bytesHex_length, hmacSha256_length]
  omega

/-- C5: when the metadata of an artifact records a key fingerprint and it
differs from the fingerprint of the supplied master secret, `decrypt_by_id`
fails with the key-mismatch error, leaves the filesystem untouched, and its
outcome is the same whatever bytes the stored ciphertext blob holds (the
equation holds for every `ct`), i.e. the ciphertext is never read or
decrypted. -/
theorem C5_fingerprint_fails_fast (D : List Nat → List Nat)
    (storageDir fileId : List Char) (masterKey : List Nat) (fs : Fs) (cs : Nat)
    (ct : List Nat) (meta : MetaRecord) (fp : List Char)
    (henc : fs (encPathOf storageDir fileId) = some (.blob ct))
    (hmeta : fs (metaPathOf storageDir fileId) = some (.metaDoc meta))
    (hfp : meta.keyFp = some fp)
    (hne : fp ≠ key_fingerprint masterKey) :
    decrypt_by_id D storageDir masterKey fs fileId cs
      = (fs, Except.error ApiError.keyMismatch) := by
  unfold decrypt_by_id
  dsimp only
  rw [henc, hmeta]
  dsimp only
  rw [hfp]
  dsimp only
  have hkf : decide (key_fingerprint masterKey ≠ fp) = true :=
    decide_eq_true (fun h => hne h.symm)
  rw [hkf]
  simp

theorem decrypt_file_ok (D : List Nat → List Nat)
    (mac_key iv tag ct : List Nat) (cs : Nat) (p : List Nat) (v : Nat × Nat)
    (h : decryptRun D mac_key iv tag ct cs = (p, Except.ok v)) :
    decrypt_file_to_path D mac_key iv tag ct cs = (some p, Except.ok v) := by
  unfold decrypt_file_to_path
  rw [h]

theorem decrypt_file_ok_fst (D : List Nat → List Nat)
    (mac_key iv tag ct : List Nat) (cs : Nat) (v : Nat × Nat)
    (h : (decrypt_file_to_path D mac_key iv tag ct cs).2 = Except.ok v) :
    ∃ pt, (decrypt_file_to_path D mac_key iv tag ct cs).1 = some pt := by
  unfold decrypt_file_to_path at h ⊢
  dsimp only at h ⊢
  cases hr : (decryptRun D mac_key iv tag ct cs).2 with
  | ok w => simp [hr]
  | error e => simp [hr] at h

/-- C10: a successful `decrypt_by_id` serves the decrypted file from the
predictable path `<storage_dir>/<file_id>.dec.tmp` inside the storage
directory, and after the call returns that path still holds the full
plaintext that `decrypt_file_to_path` produced — nothing deletes or
relocates it on success. -/
theorem C10_plaintext_persists (D : List Nat → List Nat)
    (storageDir fileId : List Char) (masterKey : List Nat) (fs : Fs) (cs : Nat)
    (fs' : Fs) (pth : List Char)
    (h : decrypt_by_id D storageDir masterKey fs fileId cs = (fs', Except.ok pth)) :
    pth = tmpPathOf storageDir fileId ∧
    ∃ ct meta pt,
      fs (encPathOf storageDir fileId) = some (.blob ct) ∧
      fs (metaPathOf storageDir fileId) = some (.metaDoc meta) ∧
      (decrypt_file_to_path D (derive_encryption_and_mac_keys masterKey).2
          meta.iv meta.tag ct cs).1 = some pt ∧
      fs' pth = some (.blob pt) := by
  unfold decrypt_by_id at h
  dsimp only at h
  rcases he : fs (encPathOf storageDir fileId) with _ | eEnc
  · rw [he] at h; simp at h
  rcases hm : fs (metaPathOf storageDir fileId) with _ | eMeta
  · rw [he, hm] at h; simp at h
  rw [he, hm] at h
  cases eEnc with
  | metaDoc m0 => cases eMeta <;> simp at h
  | blob ct =>
    cases eMeta with
    | blob b0 => simp at h
    | metaDoc meta =>
      dsimp only at h
      split at h
      · simp at h
      · rcases hd : (decrypt_file_to_path D (derive_encryption_and_mac_keys masterKey).2
            meta.iv meta.tag ct cs).2 with e | v
        · rw [hd] at h; simp at h
        · rw [hd] at h
          dsimp only at h
          rw [Prod.ext_iff] at h
          obtain ⟨hfs, hpth⟩ := h
          dsimp only at hfs hpth
          have hp := Except.ok.inj hpth
          subst hp
          refine ⟨rfl, ct, meta, ?_⟩
          obtain ⟨pt, hpt⟩ := decrypt_file_ok_fst D _ meta.iv meta.tag ct cs v hd
          refine ⟨pt, rfl, rfl, hpt, ?_⟩
          rw [← hfs]
          simp [hpt]

/-- C4 (code evaluated at the failing input): when a storage fault strikes
while the metadata JSON is being written — after the ciphertext was fully
written and the metadata file was created with partial content — the
`except` cleanup of `encrypt_file` removes only `<id>.enc`, so the request
fails with the 500 error yet the partial `<id>.json` record is left
behind, contradicting the claim that a failed encrypt never leaves either
artifact alone. -/
theorem C4_meta_record_left_behind :
    (encrypt_file (fun b => b) ("d".toList) (List.replicate 32 0) (fun _ => none)
        ("f".toList) none [] (List.replicate 16 0) 16
        (.duringMetaWrite [1, 2, 3])).2 = Except.error ApiError.storeFailed ∧
    (encrypt_file (fun b => b) ("d".toList) (List.replicate 32 0) (fun _ => none)
        ("f".toList) none [] (List.replicate 16 0) 16
        (.duringMetaWrite [1, 2, 3])).1 (metaPathOf "d".toList "f".toList)
      = some (.blob [1, 2, 3]) ∧
    (encrypt_file (fun b => b) ("d".toList) (List.replicate 32 0) (fun _ => none)
        ("f".toList) none [] (List.replicate 16 0) 16
        (.duringMetaWrite [1, 2, 3])).1 (encPathOf "d".toList "f".toList)
      = none := by
  unfold encrypt_file
  dsimp only
  rw [encrypt_fileobj_eq (fun b => b) _ _ [] 16 (by omega)]
  dsimp only
  refine ⟨rfl, ?_, ?_⟩
  · simp [fsRemove, fsPut]
    exact fun h => encPath_ne_metaPath "d".toList "f".toList h.symm
  · simp [fsRemove]

/-! ## Key derivation (C7) -/

theorem derive_keys_lengths (s : List Nat) :
    (derive_encryption_and_mac_keys s).1.length = 32 ∧
      (derive_encryption_and_mac_keys s).2.length = 32 := by
  unfold derive_encryption_and_mac_keys hkdfSha256_64
  dsimp only
  constructor
  · rw [List.length_take, List.length_take, List.length_append,
      hmacSha256_length, hmacSha256_length]
    omega
  · rw [List.length_take, List.length_drop, List.length_take, List.length_append,
      hmacSha256_length, hmacSha256_length]
    omega

/-- C7 (amended): `derive_encryption_and_mac_keys` performs no length
validation at all — for every input secret, of any length, it succeeds and
deterministically returns a pair of 32-byte keys (`okm[:32]`, `okm[32:64]`
of the HKDF output); the 32-byte requirement on secrets is enforced only by
`parse_master_key`, not here. -/
theorem C7_derive_no_length_check (s : List Nat) :
    (derive_encryption_and_mac_keys s).1.length = 32 ∧
      (derive_encryption_and_mac_keys s).2.length = 32 :=
  derive_keys_lengths s

/-- C7 counterexample: the claim says `derive` fails with `InvalidKey` for
any secret whose length is not 32 bytes, but the source has no such check:
on the empty (0-byte) secret it succeeds and returns two well-formed
32-byte keys. -/
theorem C7_counterexample_empty_secret :
    (derive_encryption_and_mac_keys []).1.length = 32 ∧
      (derive_encryption_and_mac_keys []).2.length = 32 :=
  derive_keys_lengths []

/-! ## Key parsing (C6) -/

theorem hex_not_space (c : Char) (h : (hexVal c).isSome) : isPySpace c = false := by
  unfold hexVal at h
  unfold isPySpace
  dsimp only at h
  split_ifs at h with h1 h2 h3 <;>
    first
    | (simp only [Bool.or_eq_false_iff, decide_eq_false_iff_not]
       omega)
    | simp at h

theorem hex_translate_id (c : Char) (h : (hexVal c).isSome) :
    (if c = '-' then '+' else if c = '_' then '/' else c) = c := by
  rcases eq_or_ne c '-' with rfl | h1
  · exact absurd h (by decide)
  rcases eq_or_ne c '_' with rfl | h2
  · exact absurd h (by decide)
  rw [if_neg h1, if_neg h2]

theorem hex_b64Val_isSome (c : Char) (h : (hexVal c).isSome) :
    (b64Val c).isSome := by
  unfold hexVal at h
  unfold b64Val
  dsimp only at h ⊢
  split_ifs at h with h1 h2 h3 <;>
    first
    | (split_ifs with g1 g2 g3 g4 g5 <;> first | rfl | omega)
    | simp at h

theorem hex_ne_pad (c : Char) (h : (hexVal c).isSome) : c ≠ '=' := by
  rintro rfl
  exact absurd h (by decide)

/-- `bytes.fromhex` on an even-length string of hex digits succeeds and
produces one byte per digit pair. -/
theorem pyFromHex_all_hex (s : List Char) (hall : ∀ c ∈ s, (hexVal c).isSome)
    (heven : s.length % 2 = 0) :
    ∃ d, pyFromHex s = some d ∧ d.length = s.length / 2 := by
  match s with
  | [] => exact ⟨[], rfl, rfl⟩
  | [c] => simp at heven
  | c :: d :: rest =>
    have hc := hall c (by simp)
    have hd := hall d (by simp)
    have hcs : isPySpace c = false := hex_not_space c hc
    obtain ⟨hv, hcv⟩ := Option.isSome_iff_exists.mp hc
    obtain ⟨lv, hdv⟩ := Option.isSome_iff_exists.mp hd
    obtain ⟨t, ht, htl⟩ := pyFromHex_all_hex rest
      (fun x hx => hall x (by simp [hx]))
      (by simp only [List.length_cons] at heven ⊢; omega)
    refine ⟨(hv * 16 + lv) :: t, ?_, ?_⟩
    · simp [pyFromHex, hcs, hcv, hdv, ht]
    · simp only [List.length_cons, htl]
      omega

/-- `pyFromHex` output is at most one byte per two input characters. -/
theorem pyFromHex_length_le (s : List Char) (d : List Nat)
    (h : pyFromHex s = some d) : 2 * d.length ≤ s.length := by
  match s with
  | [] =>
    simp [pyFromHex] at h
    subst h
    simp
  | [c] =>
    by_cases hcs : isPySpace c
    · simp [pyFromHex, hcs] at h
      subst h
      simp
    · simp [pyFromHex, hcs] at h
  | c :: e :: rest' =>
    by_cases hcs : isPySpace c
    · have h' : pyFromHex (e :: rest') = some d := by
        simpa [pyFromHex, hcs] using h
      have := pyFromHex_length_le (e :: rest') d h'
      simp only [List.length_cons] at *
      omega
    · simp [pyFromHex, hcs] at h
      rcases hc1 : hexVal c with _ | hv <;> rw [hc1] at h
      · simp at h
      rcases hc2 : hexVal e with _ | lv <;> rw [hc2] at h
      · simp at h
      rcases hc3 : pyFromHex rest' with _ | t <;> rw [hc3] at h
      · simp at h
      · simp at h
        have := pyFromHex_length_le rest' t hc3
        rw [← h]
        simp only [List.length_cons]
        omega

/-- The character-processing stage of `pyUrlsafeB64Decode`: translate the
URL-safe alphabet, discard foreign characters, map to 6-bit values. -/
def b64Mapped (s : List Char) : List (Option Nat) :=
  ((s.map (fun c => if c = '-' then '+' else if c = '_' then '/' else c)).filter
    (fun c => (b64Val c).isSome || c = '=')).map
    (fun c => if c = '=' then none else b64Val c)

theorem pyUrlsafeB64Decode_eq (s : List Char) :
    pyUrlsafeB64Decode s = b64Quads (b64Mapped s) := rfl

theorem b64Mapped_append (x y : List Char) :
    b64Mapped (x ++ y) = b64Mapped x ++ b64Mapped y := by
  simp [b64Mapped]

theorem b64Mapped_cons (c : Char) (t : List Char) :
    b64Mapped (c :: t) = b64Mapped [c] ++ b64Mapped t := by
  simpa using b64Mapped_append [c] t

theorem b64Mapped_urlChar (v : Nat) (hv : v < 64) :
    b64Mapped [b64UrlChar v] = [some v] := by
  revert v hv
  decide

theorem b64Mapped_pad : b64Mapped ['='] = [none] := by decide

theorem b64UrlEncode_length (b : List Nat) :
    (b64UrlEncode b).length = 4 * ((b.length + 2) / 3) := by
  match b with
  | b1 :: b2 :: b3 :: rest =>
    have ih := b64UrlEncode_length rest
    simp only [b64UrlEncode, List.length_cons, ih]
    omega
  | [b1, b2] => simp [b64UrlEncode]
  | [b1] => simp [b64UrlEncode]
  | [] => rfl

/-- Decoding inverts URL-safe base64 encoding. -/
theorem b64_decode_encode (b : List Nat) (hb : ∀ x ∈ b, x < 256) :
    pyUrlsafeB64Decode (b64UrlEncode b) = some b := by
  rw [pyUrlsafeB64Decode_eq]
  match b with
  | [] => rfl
  | [b1] =>
    have h1 : b1 < 256 := hb b1 (by simp)
    rw [show b64UrlEncode [b1]
        = [b64UrlChar (b1 / 4)] ++ ([b64UrlChar (b1 % 4 * 16)] ++ (['='] ++ ['=']))
        from rfl]
    rw [b64Mapped_append, b64Mapped_append, b64Mapped_append,
      b64Mapped_urlChar _ (by omega), b64Mapped_urlChar _ (by omega), b64Mapped_pad]
    simp [b64Quads]
    omega
  | [b1, b2] =>
    have h1 : b1 < 256 := hb b1 (by simp)
    have h2 : b2 < 256 := hb b2 (by simp)
    rw [show b64UrlEncode [b1, b2]
        = [b64UrlChar (b1 / 4)] ++ ([b64UrlChar (b1 % 4 * 16 + b2 / 16)] ++
            ([b64UrlChar (b2 % 16 * 4)] ++ ['='])) from rfl]
    rw [b64Mapped_append, b64Mapped_append, b64Mapped_append,
      b64Mapped_urlChar _ (by omega), b64Mapped_urlChar _ (by omega),
      b64Mapped_urlChar _ (by omega), b64Mapped_pad]
    simp [b64Quads]
    constructor <;> omega
  | b1 :: b2 :: b3 :: rest =>
    have h1 : b1 < 256 := hb b1 (by simp)
    have h2 : b2 < 256 := hb b2 (by simp)
    have h3 : b3 < 256 := hb b3 (by simp)
    have ih := b64_decode_encode rest (fun x hx => hb x (by simp [hx]))
    rw [pyUrlsafeB64Decode_eq] at ih
    rw [show b64UrlEncode (b1 :: b2 :: b3 :: rest)
        = [b64UrlChar (b1 / 4)] ++ ([b64UrlChar (b1 % 4 * 16 + b2 / 16)] ++
            ([b64UrlChar (b2 % 16 * 4 + b3 / 64)] ++ ([b64UrlChar (b3 % 64)] ++
              b64UrlEncode rest))) from rfl]
    rw [b64Mapped_append, b64Mapped_append, b64Mapped_append, b64Mapped_append,
      b64Mapped_urlChar _ (by omega), b64Mapped_urlChar _ (by omega),
      b64Mapped_urlChar _ (by omega), b64Mapped_urlChar _ (by omega)]
    simp only [List.singleton_append, List.cons_append, List.nil_append]
    simp [b64Quads, ih]
    refine ⟨?_, ?_, ?_⟩ <;> omega

/-- Decoding whole quads of alphabet characters yields 3 bytes per quad. -/
theorem b64Quads_all_some (vs : List (Option Nat))
    (hall : ∀ v ∈ vs, v.isSome) (h4 : vs.length % 4 = 0) :
    ∃ d, b64Quads vs = some d ∧ d.length = 3 * (vs.length / 4) := by
  match vs with
  | [] => exact ⟨[], rfl, rfl⟩
  | [o1] => simp at h4
  | [o1, o2] => simp at h4
  | [o1, o2, o3] => simp at h4
  | o1 :: o2 :: o3 :: o4 :: rest =>
    obtain ⟨v1, rfl⟩ := Option.isSome_iff_exists.mp (hall o1 (by simp))
    obtain ⟨v2, rfl⟩ := Option.isSome_iff_exists.mp (hall o2 (by simp))
    obtain ⟨v3, rfl⟩ := Option.isSome_iff_exists.mp (hall o3 (by simp))
    obtain ⟨v4, rfl⟩ := Option.isSome_iff_exists.mp (hall o4 (by simp))
    obtain ⟨t, ht, htl⟩ := b64Quads_all_some rest
      (fun x hx => hall x (by simp [hx]))
      (by simp only [List.length_cons] at h4 ⊢; omega)
    refine ⟨(v1 * 4 + v2 / 16) :: (v2 % 16 * 16 + v3 / 4) ::
      (v3 % 4 * 64 + v4) :: t, ?_, ?_⟩
    · simp [b64Quads, ht]
    · simp only [List.length_cons, htl]
      omega

/-- Decoded base64 is at most three bytes per four processed characters. -/
theorem b64Quads_length_le (vs : List (Option Nat)) (d : List Nat)
    (h : b64Quads vs = some d) : 4 * d.length ≤ 3 * vs.length := by
  match vs with
  | [] =>
    simp [b64Quads] at h
    subst h
    simp
  | o1 :: rest1 =>
    rcases o1 with _ | v1
    · simp [b64Quads] at h
    match rest1 with
    | [] => simp [b64Quads] at h
    | o2 :: rest2 =>
      rcases o2 with _ | v2
      · simp [b64Quads] at h
      match rest2 with
      | [] => simp [b64Quads] at h
      | o3 :: rest3 =>
        match rest3 with
        | [] => rcases o3 with _ | v3 <;> simp [b64Quads] at h
        | o4 :: rest4 =>
          rcases o3 with _ | v3
          · rcases o4 with _ | v4
            · match rest4 with
              | [] =>
                simp [b64Quads] at h
                subst h
                simp
              | x :: y => simp [b64Quads] at h
            · simp [b64Quads] at h
          rcases o4 with _ | v4
          · match rest4 with
            | [] =>
              simp [b64Quads] at h
              subst h
              simp
            | x :: y => simp [b64Quads] at h
          · rcases hq : b64Quads rest4 with _ | t
            · simp [b64Quads, hq] at h
            · simp [b64Quads, hq] at h
              have := b64Quads_length_le rest4 t hq
              rw [← h]
              simp only [List.length_cons, List.length_append]
              omega

theorem utf8Char_length_pos (c : Char) : 1 ≤ (utf8Char c).length := by
  unfold utf8Char
  dsimp only
  split_ifs <;> simp

theorem utf8_count_le (s : List Char) : s.length ≤ (utf8Bytes s).length := by
  induction s with
  | nil => simp [utf8Bytes]
  | cons c t ih =>
    have h1 : utf8Bytes (c :: t) = utf8Char c ++ utf8Bytes t := by
      simp [utf8Bytes]
    have h2 := utf8Char_length_pos c
    rw [h1, List.length_append, List.length_cons]
    omega

/-- C6 (amended): `parse_master_key` accepts each of the three canonical
forms and returns the decoded 32 bytes — a 64-character hex string (via
`bytes.fromhex`), a URL-safe base64 encoding of 32 bytes, and a string
whose UTF-8 encoding is exactly 32 bytes — with the branches tried in the
source's order: base64 first, then hex, then raw.  (The converse of the
claim fails: Python's lax decoders also accept some inputs outside these
three forms, see the counterexample.) -/
theorem C6_parse_master_key_forms (s : List Char) :
    (IsHex64 s → ∃ b, pyFromHex s = some b ∧ b.length = 32 ∧
      parse_master_key s = some b) ∧
    (∀ b : List Nat, b.length = 32 → (∀ x ∈ b, x < 256) → b64UrlEncode b = s →
      parse_master_key s = some b) ∧
    (IsRaw32 s → parse_master_key s = some (utf8Bytes s)) := by
  refine ⟨?_, ?_, ?_⟩
  · rintro ⟨hlen, hall⟩
    have h1 : s.map (fun c => if c = '-' then '+' else if c = '_' then '/' else c)
        = s := by
      conv_rhs => rw [← List.map_id s]
      exact List.map_congr_left (fun c hc => hex_translate_id c (hall c hc))
    have hmap : b64Mapped s = s.map (fun c => b64Val c) := by
      unfold b64Mapped
      rw [h1, List.filter_eq_self.mpr (fun c hc => by
        simp [hex_b64Val_isSome c (hall c hc)])]
      exact List.map_congr_left (fun c hc => by
        rw [if_neg (hex_ne_pad c (hall c hc))])
    have hsome : ∀ v ∈ s.map (fun c => b64Val c), v.isSome := by
      intro v hv
      obtain ⟨c, hc, rfl⟩ := List.mem_map.mp hv
      exact hex_b64Val_isSome c (hall c hc)
    obtain ⟨d48, hd48, hd48l⟩ := b64Quads_all_some _ hsome
      (by rw [List.length_map, hlen])
    have hd48l' : d48.length = 48 := by
      rw [hd48l, List.length_map, hlen]
    obtain ⟨d, hdhex, hdl⟩ := pyFromHex_all_hex s hall (by omega)
    refine ⟨d, hdhex, by omega, ?_⟩
    unfold parse_master_key
    rw [if_neg (by intro he; rw [he] at hlen; simp at hlen)]
    rw [pyUrlsafeB64Decode_eq, hmap, hd48]
    dsimp only
    rw [if_neg (by omega)]
    unfold parseHexOrRaw
    rw [hdhex]
    dsimp only
    rw [if_pos (by omega)]
  · rintro b hb32 hblt rfl
    have hne : b64UrlEncode b ≠ [] := by
      intro he
      have := b64UrlEncode_length b
      rw [he, hb32] at this
      simp at this
    unfold parse_master_key
    rw [if_neg hne, b64_decode_encode b hblt]
    dsimp only
    rw [if_pos hb32]
  · intro hraw
    have hsle : s.length ≤ 32 := by
      have h1 := utf8_count_le s
      unfold IsRaw32 at hraw
      omega
    have hne : s ≠ [] := by
      intro he
      rw [he] at hraw
      simp [IsRaw32, utf8Bytes] at hraw
    have hraw' : parseRaw s = some (utf8Bytes s) := by
      unfold parseRaw
      dsimp only
      rw [if_pos (show (utf8Bytes s).length = 32 from hraw)]
    have hhex : parseHexOrRaw s = some (utf8Bytes s) := by
      unfold parseHexOrRaw
      rcases hh : pyFromHex s with _ | d
      · exact hraw'
      · have := pyFromHex_length_le s d hh
        dsimp only
        rw [if_neg (by omega)]
        exact hraw'
    unfold parse_master_key
    rw [if_neg hne]
    rcases hb : pyUrlsafeB64Decode s with _ | d
    · exact hhex
    · rw [pyUrlsafeB64Decode_eq] at hb
      have hle := b64Quads_length_le _ d hb
      have hml : (b64Mapped s).length ≤ s.length := by
        unfold b64Mapped
        rw [List.length_map]
        calc ((s.map _).filter _).length
            ≤ (s.map (fun c => if c = '-' then '+' else if c = '_' then '/' else c)).length :=
              List.length_filter_le _ _
          _ = s.length := List.length_map _ _
      dsimp only
      rw [if_neg (by omega)]
      exact hhex

/-- C6 counterexample: the 65-character string of 64 `'0'` digits followed
by a space is none of the three accepted forms the claim lists (its UTF-8
encoding is 65 bytes, it is not 64 characters of hex, and it is not a
URL-safe base64 encoding of any 32-byte sequence), yet `parse_master_key`
accepts it — `bytes.fromhex` skips the trailing ASCII whitespace — and
returns 32 zero bytes, where the claim requires an `InvalidKey` failure. -/
theorem C6_counterexample_lax_decoders :
    ¬ IsRaw32 (List.replicate 64 '0' ++ [' ']) ∧
    ¬ IsHex64 (List.replicate 64 '0' ++ [' ']) ∧
    ¬ IsB64Url32 (List.replicate 64 '0' ++ [' ']) ∧
    parse_master_key (List.replicate 64 '0' ++ [' '])
      = some (List.replicate 32 0) := by
  refine ⟨by decide, by decide, ?_, by decide⟩
  rintro ⟨b, hb32, hblt, hbe⟩
  have hlen := b64UrlEncode_length b
  rw [hbe, hb32] at hlen
  simp at hlen

/-! ## Witnesses: the hypotheses of the claim theorems are satisfiable -/

theorem C1_witness :
    (∀ b : List Nat, (fun x => x) ((fun x => x) b) = b) ∧
    (List.replicate 16 0 : List Nat).length = 16 ∧ 0 < 5 ∧ 0 < 7 ∧
    decrypt_file_to_path (fun x => x) [] (List.replicate 16 0)
        (hmacSha256 [] (List.replicate 16 0 ++
          (cbcEncRun (fun x => x) (List.replicate 16 0) (padAll [1, 2, 3])).2))
        (cbcEncRun (fun x => x) (List.replicate 16 0) (padAll [1, 2, 3])).2 7
      = (some [1, 2, 3],
          Except.ok
            ((cbcEncRun (fun x => x) (List.replicate 16 0)
              (padAll [1, 2, 3])).2.length, 3)) := by
  refine ⟨fun b => rfl, by decide, by decide, by decide, ?_⟩
  have h := C1_round_trip (fun x => x) (fun x => x) [] (List.replicate 16 0)
    [1, 2, 3] 5 7
    { iv := List.replicate 16 0, bytesIn := [1, 2, 3].length,
      bytesOut := (cbcEncRun (fun x => x) (List.replicate 16 0)
        (padAll [1, 2, 3])).2.length,
      tag := hmacSha256 [] (List.replicate 16 0 ++
        (cbcEncRun (fun x => x) (List.replicate 16 0) (padAll [1, 2, 3])).2),
      ciphertext := (cbcEncRun (fun x => x) (List.replicate 16 0)
        (padAll [1, 2, 3])).2 }
    (fun b => rfl) (fun b hb => hb) (fun b hb => hb) (by decide) (by decide)
    (by decide)
    (encrypt_fileobj_eq (fun x => x) [] (List.replicate 16 0) [1, 2, 3] 5
      (by decide))
  simpa using h

theorem C2_witness :
    0 < 5 ∧
    encrypt_fileobj_to_path (fun x => x) [] (List.replicate 16 0) [1, 2, 3] 5
      = some
        { iv := List.replicate 16 0, bytesIn := [1, 2, 3].length,
          bytesOut := (cbcEncRun (fun x => x) (List.replicate 16 0)
            (padAll [1, 2, 3])).2.length,
          tag := hmacSha256 [] (List.replicate 16 0 ++
            (cbcEncRun (fun x => x) (List.replicate 16 0) (padAll [1, 2, 3])).2),
          ciphertext := (cbcEncRun (fun x => x) (List.replicate 16 0)
            (padAll [1, 2, 3])).2 } ∧
    (hmacSha256 [] (List.replicate 16 0 ++
        (cbcEncRun (fun x => x) (List.replicate 16 0) (padAll [1, 2, 3])).2))
      = hmacSha256 [] (List.replicate 16 0 ++
          (cbcEncRun (fun x => x) (List.replicate 16 0) (padAll [1, 2, 3])).2) := by
  refine ⟨by decide,
    encrypt_fileobj_eq (fun x => x) [] (List.replicate 16 0) [1, 2, 3] 5
      (by decide), ?_⟩
  exact C2_tag_is_mac_of_iv_ct (fun x => x) [] (List.replicate 16 0) [1, 2, 3] 5
    (by decide) _
    (encrypt_fileobj_eq (fun x => x) [] (List.replicate 16 0) [1, 2, 3] 5
      (by decide))

theorem C3_witness :
    0 < 1 ∧
    (decrypt_file_to_path (fun x => x) [] [] [] [] 1).2
      = Except.error DecError.badPadding ∧
    (decrypt_file_to_path (fun x => x) [] [] [] [] 1).1 = none := by
  have heval : decrypt_file_to_path (fun x => x) [] [] [] [] 1
      = (none, Except.error DecError.badPadding) := by
    simp [decrypt_file_to_path, decryptRun, decLoop, unpadFinalize]
  refine ⟨by decide, by rw [heval], ?_⟩
  exact (C3_cleanup_on_failure (fun x => x) [] [] [] [] 1 (by decide)).1
    DecError.badPadding (by rw [heval])

/-- The result record of the empty-plaintext encryption used by `C9_witness`. -/
def c9res : EncResult :=
  { iv := List.replicate 16 0, bytesIn := ([] : List Nat).length,
    bytesOut := (cbcEncRun (fun x => x) (List.replicate 16 0) (padAll [])).2.length,
    tag := hmacSha256 [] (List.replicate 16 0 ++
      (cbcEncRun (fun x => x) (List.replicate 16 0) (padAll [])).2),
    ciphertext := (cbcEncRun (fun x => x) (List.replicate 16 0) (padAll [])).2 }

theorem C9_witness :
    0 < 4 ∧ (List.replicate 16 0 : List Nat).length = 16 ∧
    c9res.bytesIn = 0 ∧
    c9res.bytesOut = c9res.bytesIn + (16 - c9res.bytesIn % 16) ∧
    c9res.bytesOut % 16 = 0 ∧ 0 < c9res.bytesOut := by
  have h := C9_padding_counters (fun x => x) [] (List.replicate 16 0) [] 4
    (by decide) (fun b hb => hb) (by decide) c9res
    (encrypt_fileobj_eq (fun x => x) [] (List.replicate 16 0) [] 4 (by decide))
  exact ⟨by decide, by decide, h.1, h.2.1, h.2.2.2.2.1, h.2.2.2.2.2⟩

/-- Fixture metadata with a stored fingerprint for `C5_witness`. -/
def c5meta : MetaRecord :=
  { fileId := "f".toList, originalFilename := none, bytesIn := 0, bytesOut := 16,
    iv := [], tag := [], keyFp := some ['x'] }

/-- Fixture filesystem for `C5_witness`. -/
def c5fs : Fs := fun p =>
  if p = encPathOf "d".toList "f".toList then some (.blob [9])
  else if p = metaPathOf "d".toList "f".toList then some (.metaDoc c5meta)
  else none

theorem C5_witness :
    c5fs (encPathOf "d".toList "f".toList) = some (.blob [9]) ∧
    c5fs (metaPathOf "d".toList "f".toList) = some (.metaDoc c5meta) ∧
    c5meta.keyFp = some ['x'] ∧
    ['x'] ≠ key_fingerprint (List.replicate 32 0) ∧
    decrypt_by_id (fun x => x) "d".toList (List.replicate 32 0) c5fs "f".toList 7
      = (c5fs, Except.error ApiError.keyMismatch) := by
  have hne : ['x'] ≠ key_fingerprint (List.replicate 32 0) := by
    intro h
    have hl := key_fingerprint_length (List.replicate 32 0)
    rw [← h] at hl
    simp at hl
  refine ⟨by decide, by decide, rfl, hne, ?_⟩
  exact C5_fingerprint_fails_fast (fun x => x) "d".toList "f".toList
    (List.replicate 32 0) c5fs 7 [9] c5meta ['x'] (by decide) (by decide) rfl hne

theorem C6_witness :
    IsHex64 (List.replicate 64 '0') ∧
    parse_master_key (List.replicate 64 '0') = some (List.replicate 32 0) := by
  refine ⟨by decide, ?_⟩
  obtain ⟨b, hb1, hb2, hb3⟩ :=
    (C6_parse_master_key_forms (List.replicate 64 '0')).1 (by decide)
  have heval : pyFromHex (List.replicate 64 '0') = some (List.replicate 32 0) := by
    decide
  rw [hb1] at heval
  obtain rfl := Option.some.inj heval
  exact hb3

/-- Fixture filesystem for `C8_witness`: only the ciphertext blob exists. -/
def c8fs : Fs := fun p =>
  if p = encPathOf "d".toList "f".toList then some (.blob []) else none

theorem C8_witness :
    (c8fs (encPathOf "d".toList "f".toList)).isSome = true ∧
    c8fs (metaPathOf "d".toList "f".toList) = none ∧
    (delete_by_id "d".toList c8fs "f".toList).2 = Except.ok (true, false) := by
  refine ⟨by decide, by decide, ?_⟩
  exact (C8_delete_independent "d".toList "f".toList c8fs).2.2 (by decide)
    (by decide)

/-- The ciphertext fixture used by `C10_witness`. -/
def c10ct : List Nat :=
  (cbcEncRun (fun x => x) (List.replicate 16 0) (padAll [1, 2, 3])).2

/-- Fixture metadata (no stored fingerprint; matching tag) for `C10_witness`. -/
def c10meta : MetaRecord :=
  { fileId := "f".toList, originalFilename := none, bytesIn := 3, bytesOut := 16,
    iv := List.replicate 16 0,
    tag := hmacSha256 (derive_encryption_and_mac_keys (List.replicate 32 0)).2
      (List.replicate 16 0 ++ c10ct),
    keyFp := none }

/-- Fixture filesystem for `C10_witness`. -/
def c10fs : Fs := fun p =>
  if p = encPathOf "d".toList "f".toList then some (.blob c10ct)
  else if p = metaPathOf "d".toList "f".toList then some (.metaDoc c10meta)
  else none

theorem C10_witness :
    (decrypt_by_id (fun x => x) "d".toList (List.replicate 32 0) c10fs
        "f".toList 7).2 = Except.ok (tmpPathOf "d".toList "f".toList) ∧
    (decrypt_by_id (fun x => x) "d".toList (List.replicate 32 0) c10fs
        "f".toList 7).1 (tmpPathOf "d".toList "f".toList)
      = some (.blob [1, 2, 3]) := by
  have hdR : decryptRun (fun x => x)
      (derive_encryption_and_mac_keys (List.replicate 32 0)).2
      (List.replicate 16 0)
      (hmacSha256 (derive_encryption_and_mac_keys (List.replicate 32 0)).2
        (List.replicate 16 0 ++
          (cbcEncRun (fun x => x) (List.replicate 16 0) (padAll [1, 2, 3])).2))
      (cbcEncRun (fun x => x) (List.replicate 16 0) (padAll [1, 2, 3])).2 7
      = ([1, 2, 3],
          Except.ok ((cbcEncRun (fun x => x) (List.replicate 16 0)
            (padAll [1, 2, 3])).2.length, 3)) :=
    decryptRun_valid (fun x => x) (fun x => x)
      (derive_encryption_and_mac_keys (List.replicate 32 0)).2
      (List.replicate 16 0) [1, 2, 3] 7 (fun b => rfl) (fun b hb => hb)
      (fun b hb => hb) (by decide) (by decide)
  have hd : decrypt_file_to_path (fun x => x)
      (derive_encryption_and_mac_keys (List.replicate 32 0)).2 c10meta.iv
      c10meta.tag c10ct 7
      = (some [1, 2, 3], Except.ok (c10ct.length, 3)) :=
    decrypt_file_ok (fun x => x)
      (derive_encryption_and_mac_keys (List.replicate 32 0)).2
      (List.replicate 16 0)
      (hmacSha256 (derive_encryption_and_mac_keys (List.replicate 32 0)).2
        (List.replicate 16 0 ++
          (cbcEncRun (fun x => x) (List.replicate 16 0) (padAll [1, 2, 3])).2))
      (cbcEncRun (fun x => x) (List.replicate 16 0) (padAll [1, 2, 3])).2 7
      [1, 2, 3]
      ((cbcEncRun (fun x => x) (List.replicate 16 0)
        (padAll [1, 2, 3])).2.length, 3)
      hdR
  have hfull : decrypt_by_id (fun x => x) "d".toList (List.replicate 32 0) c10fs
      "f".toList 7
      = (fun q => if q = tmpPathOf "d".toList "f".toList
          then some (.blob [1, 2, 3]) else c10fs q,
         Except.ok (tmpPathOf "d".toList "f".toList)) := by
    unfold decrypt_by_id
    dsimp only
    rw [show c10fs (encPathOf "d".toList "f".toList) = some (.blob c10ct) from by
      unfold c10fs
      rw [if_pos rfl]]
    rw [show c10fs (metaPathOf "d".toList "f".toList) = some (.metaDoc c10meta)
        from by
      unfold c10fs
      rw [if_neg (by decide), if_pos rfl]]
    dsimp only
    rw [show c10meta.keyFp = none from rfl]
    dsimp only
    rw [hd]
    rfl
  have hc10 := C10_plaintext_persists (fun x => x) "d".toList "f".toList
    (List.replicate 32 0) c10fs 7 _ _ hfull
  obtain ⟨hpth, ct, meta, pt, hct, hmeta, hpt, hfs⟩ := hc10
  constructor
  · rw [hfull]
  · rw [hfull]
    simp

end FileServer
